import Mathlib

/-!
Verification development for the chinese-writer editor extension.

Strings are modelled as `List Char` (JS strings over UTF-16 code units; all
characters appearing here are BMP, so one code unit = one `Char`).  Documents
are modelled as lists of lines (`List (List Char)`), matching the pervasive
`content.split("\n")` / `join("\n")` pattern of the source.  Each definition
is a direct translation of the correspondingly named function of the source;
spec-side definitions (used for refinement-style claims) carry the word
`Spec` in their name and a doc comment citing the specification wording.
-/

set_option maxHeartbeats 1000000

/-- Shorthand for a JS string modelled as a list of characters. -/
abbrev LC := List Char

/-- Shorthand for a document modelled as its list of lines. -/
abbrev Lines := List LC

/-- JS `String.prototype.trim`, dropping whitespace at both ends. -/
def trimL (s : LC) : LC :=
  ((s.dropWhile Char.isWhitespace).reverse.dropWhile Char.isWhitespace).reverse

/-- JS `line.indexOf(tag)` followed by `line.slice(index + tag.length)`:
`some` of the text after the first occurrence of `tag`, `none` when the tag
does not occur (for the nonempty tags used by the source). -/
def afterTag (tag : LC) : LC → Option LC
  | [] => none
  | c :: rest =>
    if tag.isPrefixOf (c :: rest) then some ((c :: rest).drop tag.length)
    else afterTag tag rest

/-- JS `value.replace(/\s+/g, " ")`: each maximal whitespace run becomes one
space.  `prevWs` records whether the previous character was whitespace. -/
def collapseWsGo (prevWs : Bool) : LC → LC
  | [] => []
  | c :: rest =>
    if c.isWhitespace then
      (if prevWs then [] else [' ']) ++ collapseWsGo true rest
    else c :: collapseWsGo false rest

/-- `value.replace(/\s+/g, " ")` from a clean start. -/
def collapseWs (s : LC) : LC := collapseWsGo false s

/-- Delimiter class of the status split regex `[，,、/|；;]+`. -/
def isStatusDelim (c : Char) : Bool :=
  c = '，' || c = ',' || c = '、' || c = '/' || c = '|' || c = '；' || c = ';'

/-- JS `String.prototype.split` against a one-character-class regex with `+`:
maximal delimiter runs separate the pieces.  `skipping` is true just after a
delimiter run has been entered, `cur` is the current piece reversed. -/
def splitStatusGo (skipping : Bool) (cur : LC) : LC → List LC
  | [] => [cur.reverse]
  | c :: rest =>
    if isStatusDelim c then
      if skipping then splitStatusGo true [] rest
      else cur.reverse :: splitStatusGo true [] rest
    else splitStatusGo false (c :: cur) rest

/-- `normalizedRaw.split(/[，,、/|；;]+/)`. -/
def splitStatusVal (s : LC) : List LC := splitStatusGo false [] s

/-- JS `s.includes(pat)` (substring containment) for nonempty `pat`. -/
def hasSubstr (s pat : LC) : Bool :=
  (List.range (s.length + 1)).any fun i => pat.isPrefixOf (s.drop i)

/-- The literal tag `【状态】`. -/
def statusTag : LC := ("【状态】").toList

/-- The literal status value `死亡` (deceased). -/
def siwang : LC := ("死亡").toList

/-- The literal status value `失效` (invalidated). -/
def shixiao : LC := ("失效").toList

/-- The values one line pushes into `statusValues` in
`extractPreferredStatus`: nothing without the `【状态】` tag or with an empty
trimmed value; otherwise `死亡` when contained, then `失效` when contained,
then the trimmed nonempty split tokens. -/
def statusValuesOfLine (line : LC) : List LC :=
  match afterTag statusTag line with
  | none => []
  | some sliced =>
    let rawValue := trimL sliced
    if rawValue = [] then []
    else
      let normalizedRaw := trimL (collapseWs rawValue)
      (if hasSubstr normalizedRaw siwang then [siwang] else []) ++
        (if hasSubstr normalizedRaw shixiao then [shixiao] else []) ++
        ((splitStatusVal normalizedRaw).map trimL).filter (· ≠ [])

/-- `HighlightManager.extractPreferredStatus`: collect `statusValues` over
all lines, then `死亡` wins, else `失效`, else the first collected value. -/
def extractPreferredStatus (lines : Lines) : Option LC :=
  let statusValues := lines.flatMap statusValuesOfLine
  if statusValues = [] then none
  else if siwang ∈ statusValues then some siwang
  else if shixiao ∈ statusValues then some shixiao
  else statusValues.head?

/-- The normalized `【状态】` value of a line (`none` when the line has no
tag or an empty trimmed value), shared by code and spec readings. -/
def normalizedStatusValue (line : LC) : Option LC :=
  match afterTag statusTag line with
  | none => none
  | some sliced =>
    let rawValue := trimL sliced
    if rawValue = [] then none else some (trimL (collapseWs rawValue))

/-- The comma/slash/semicolon/pipe-delimited tokens of a line's normalized
status value (trimmed, empties dropped). -/
def statusTokensOfLine (line : LC) : List LC :=
  match normalizedStatusValue line with
  | none => []
  | some v => ((splitStatusVal v).map trimL).filter (· ≠ [])

/-- Spec reading of status extraction: "if normalized value contains the
substring 死亡 or 失效 that specific value takes absolute precedence …, with
deceased outranking invalidated if both appear; otherwise the first
status-bearing line's first comma/slash/semicolon/pipe-delimited token is
used", and an Entry without a `【状态】` line has no status. -/
def preferredStatusSpec (lines : Lines) : Option LC :=
  let vals := lines.filterMap normalizedStatusValue
  if vals.any (fun v => hasSubstr v siwang) then some siwang
  else if vals.any (fun v => hasSubstr v shixiao) then some shixiao
  else (lines.flatMap statusTokensOfLine).head?

/-- `pat` occurs as a contiguous substring of `s`. -/
def ContainsSub (s pat : LC) : Prop := ∃ a b, s = a ++ pat ++ b

theorem isPrefixOf_iff_exists {p l : LC} :
    p.isPrefixOf l = true ↔ ∃ t, l = p ++ t := by
  induction p generalizing l with
  | nil => simp [List.isPrefixOf]
  | cons a as ih =>
    cases l with
    | nil => simp [List.isPrefixOf]
    | cons b bs =>
      simp only [List.isPrefixOf, Bool.and_eq_true, beq_iff_eq, ih]
      constructor
      · rintro ⟨rfl, t, rfl⟩; exact ⟨t, rfl⟩
      · rintro ⟨t, h⟩
        cases h
        exact ⟨rfl, t, rfl⟩

theorem hasSubstr_iff_containsSub {s pat : LC} :
    hasSubstr s pat = true ↔ ContainsSub s pat := by
  unfold hasSubstr ContainsSub
  rw [List.any_eq_true]
  constructor
  · rintro ⟨i, -, hp⟩
    rcases isPrefixOf_iff_exists.1 hp with ⟨t, ht⟩
    exact ⟨s.take i, t, by rw [List.append_assoc, ← ht, List.take_append_drop]⟩
  · rintro ⟨a, b, rfl⟩
    refine ⟨a.length, List.mem_range.2 ?_, ?_⟩
    · have : a.length ≤ (a ++ pat ++ b).length := by
        simp [List.length_append]
      omega
    · rw [List.append_assoc, List.drop_left]
      exact isPrefixOf_iff_exists.2 ⟨b, rfl⟩

theorem containsSub_trans {v piece pat : LC}
    (h1 : ContainsSub v piece) (h2 : ContainsSub piece pat) : ContainsSub v pat := by
  rcases h1 with ⟨a, b, rfl⟩
  rcases h2 with ⟨c, d, rfl⟩
  exact ⟨a ++ c, d ++ b, by simp [List.append_assoc]⟩

theorem dropWhile_containsSub (p : Char → Bool) (l : LC) :
    ContainsSub l (l.dropWhile p) :=
  ⟨l.takeWhile p, [], by simp [List.takeWhile_append_dropWhile]⟩

theorem trimL_containsSub (l : LC) : ContainsSub l (trimL l) := by
  refine containsSub_trans (dropWhile_containsSub Char.isWhitespace l) ?_
  unfold trimL
  set m := l.dropWhile Char.isWhitespace with hm
  refine ⟨[], ((m.reverse.takeWhile Char.isWhitespace).reverse), ?_⟩
  have h := List.takeWhile_append_dropWhile Char.isWhitespace m.reverse
  have key : (m.reverse.dropWhile Char.isWhitespace).reverse ++
      (m.reverse.takeWhile Char.isWhitespace).reverse = m := by
    rw [← List.reverse_append, h, List.reverse_reverse]
  simpa using key.symm

theorem splitStatusGo_containsSub (skipping : Bool) (cur : LC) (s : LC) :
    ∀ piece ∈ splitStatusGo skipping cur s, ContainsSub (cur.reverse ++ s) piece := by
  induction s generalizing skipping cur with
  | nil =>
    intro piece hp
    simp only [splitStatusGo, List.mem_singleton] at hp
    subst hp
    exact ⟨[], [], by simp⟩
  | cons c rest ih =>
    intro piece hp
    simp only [splitStatusGo] at hp
    by_cases hd : isStatusDelim c
    · rw [if_pos hd] at hp
      have hrec : piece ∈ splitStatusGo true [] rest →
          ContainsSub (cur.reverse ++ c :: rest) piece := by
        intro hmem
        have := ih true [] piece (by simpa using hmem)
        rcases (by simpa using this : ContainsSub rest piece) with ⟨a, b, hab⟩
        exact ⟨cur.reverse ++ c :: a, b, by simp [hab, List.append_assoc]⟩
      by_cases hs : skipping
      · rw [if_pos hs] at hp
        exact hrec hp
      · rw [if_neg hs] at hp
        rcases List.mem_cons.1 hp with h | h
        · subst h
          exact ⟨[], c :: rest, by simp⟩
        · exact hrec h
    · rw [if_neg hd] at hp
      have := ih false (c :: cur) piece hp
      simpa [List.append_assoc] using this

theorem splitStatusVal_containsSub {v piece : LC} (h : piece ∈ splitStatusVal v) :
    ContainsSub v piece := by
  have := splitStatusGo_containsSub false [] v piece h
  simpa using this

theorem statusTokensOfLine_containsSub {line t : LC} {v : LC}
    (hv : normalizedStatusValue line = some v) (ht : t ∈ statusTokensOfLine line) :
    ContainsSub v t := by
  unfold statusTokensOfLine at ht
  rw [hv] at ht
  rcases List.mem_filter.1 ht with ⟨hmem, -⟩
  rcases List.mem_map.1 hmem with ⟨piece, hpiece, rfl⟩
  exact containsSub_trans (splitStatusVal_containsSub hpiece) (trimL_containsSub piece)

theorem flatMap_congr_of_mem {α β : Type} {l : List α} {f g : α → List β}
    (h : ∀ a ∈ l, f a = g a) : l.flatMap f = l.flatMap g := by
  induction l with
  | nil => rfl
  | cons x xs ih =>
    simp only [List.flatMap_cons]
    rw [h x (List.mem_cons_self x xs), ih fun a ha => h a (List.mem_cons_of_mem x ha)]

theorem statusValuesOfLine_of_none {line : LC} (h : normalizedStatusValue line = none) :
    statusValuesOfLine line = [] := by
  unfold statusValuesOfLine
  unfold normalizedStatusValue at h
  rcases hat : afterTag statusTag line with _ | sliced
  · rfl
  · rw [hat] at h
    simp only at h ⊢
    by_cases hr : trimL sliced = []
    · rw [if_pos hr]
    · rw [if_neg hr] at h; cases h

theorem statusValuesOfLine_of_some {line v : LC} (h : normalizedStatusValue line = some v) :
    statusValuesOfLine line =
      (if hasSubstr v siwang then [siwang] else []) ++
        (if hasSubstr v shixiao then [shixiao] else []) ++
        ((splitStatusVal v).map trimL).filter (· ≠ []) := by
  unfold statusValuesOfLine
  unfold normalizedStatusValue at h
  rcases hat : afterTag statusTag line with _ | sliced
  · rw [hat] at h; cases h
  · rw [hat] at h
    simp only at h ⊢
    by_cases hr : trimL sliced = []
    · rw [if_pos hr] at h; cases h
    · rw [if_neg hr] at h ⊢
      rw [Option.some.inj h]

theorem statusTokensOfLine_of_none {line : LC} (h : normalizedStatusValue line = none) :
    statusTokensOfLine line = [] := by
  unfold statusTokensOfLine
  rw [h]

theorem statusTokensOfLine_of_some {line v : LC} (h : normalizedStatusValue line = some v) :
    statusTokensOfLine line = ((splitStatusVal v).map trimL).filter (· ≠ []) := by
  unfold statusTokensOfLine
  rw [h]

theorem statusTokensOfLine_mem_values {line t : LC} (ht : t ∈ statusTokensOfLine line) :
    t ∈ statusValuesOfLine line := by
  rcases hv : normalizedStatusValue line with _ | v
  · rw [statusTokensOfLine_of_none hv] at ht; cases ht
  · rw [statusTokensOfLine_of_some hv] at ht
    rw [statusValuesOfLine_of_some hv]
    simp only [List.mem_append]
    exact Or.inr ht

theorem mem_values_siwang_iff {line : LC} :
    siwang ∈ statusValuesOfLine line ↔
      ∃ v, normalizedStatusValue line = some v ∧ hasSubstr v siwang = true := by
  rcases hv : normalizedStatusValue line with _ | v
  · rw [statusValuesOfLine_of_none hv]
    simp
  · rw [statusValuesOfLine_of_some hv]
    simp only [List.mem_append]
    constructor
    · intro h
      refine ⟨v, rfl, ?_⟩
      rcases h with (h1 | h2) | h3
      · by_cases hc : hasSubstr v siwang = true
        · exact hc
        · rw [if_neg hc] at h1; cases h1
      · by_cases hc : hasSubstr v shixiao = true
        · rw [if_pos hc] at h2
          exact absurd (List.mem_singleton.1 h2) (by decide)
        · rw [if_neg hc] at h2; cases h2
      · have htok : siwang ∈ statusTokensOfLine line := by
          rw [statusTokensOfLine_of_some hv]; exact h3
        exact hasSubstr_iff_containsSub.2 (statusTokensOfLine_containsSub hv htok)
    · rintro ⟨v', hv', hc⟩
      have hvv : v = v' := Option.some.inj hv'
      subst hvv
      rw [if_pos hc]
      exact Or.inl (Or.inl (List.mem_singleton.2 rfl))

theorem mem_values_shixiao_iff {line : LC} :
    shixiao ∈ statusValuesOfLine line ↔
      ∃ v, normalizedStatusValue line = some v ∧ hasSubstr v shixiao = true := by
  rcases hv : normalizedStatusValue line with _ | v
  · rw [statusValuesOfLine_of_none hv]
    simp
  · rw [statusValuesOfLine_of_some hv]
    simp only [List.mem_append]
    constructor
    · intro h
      refine ⟨v, rfl, ?_⟩
      rcases h with (h1 | h2) | h3
      · by_cases hc : hasSubstr v siwang = true
        · rw [if_pos hc] at h1
          exact absurd (List.mem_singleton.1 h1) (by decide)
        · rw [if_neg hc] at h1; cases h1
      · by_cases hc : hasSubstr v shixiao = true
        · exact hc
        · rw [if_neg hc] at h2; cases h2
      · have htok : shixiao ∈ statusTokensOfLine line := by
          rw [statusTokensOfLine_of_some hv]; exact h3
        exact hasSubstr_iff_containsSub.2 (statusTokensOfLine_containsSub hv htok)
    · rintro ⟨v', hv', hc⟩
      have hvv : v = v' := Option.some.inj hv'
      subst hvv
      rw [if_pos hc]
      exact Or.inl (Or.inr (List.mem_singleton.2 rfl))

theorem statusValuesOfLine_eq_tokens {line : LC}
    (h : ∀ v, normalizedStatusValue line = some v →
      hasSubstr v siwang = false ∧ hasSubstr v shixiao = false) :
    statusValuesOfLine line = statusTokensOfLine line := by
  rcases hv : normalizedStatusValue line with _ | v
  · rw [statusValuesOfLine_of_none hv, statusTokensOfLine_of_none hv]
  · rw [statusValuesOfLine_of_some hv, statusTokensOfLine_of_some hv]
    have := h v hv
    rw [this.1, this.2]
    simp

/-- C7: status extraction precedence.  If any normalized `【状态】` value on
the Entry contains the substring `死亡` the extracted status is `死亡`;
otherwise if any contains `失效` it is `失效`; otherwise it is the first
comma/slash/semicolon/pipe-delimited token of the first status-bearing line;
and an Entry with no `【状态】` line has no status.  Stated as equality of
the translated `extractPreferredStatus` with the spec-side reading. -/
theorem extractPreferredStatus_eq_spec (lines : Lines) :
    extractPreferredStatus lines = preferredStatusSpec lines := by
  unfold extractPreferredStatus preferredStatusSpec
  simp only
  have hsiw : siwang ∈ lines.flatMap statusValuesOfLine ↔
      (lines.filterMap normalizedStatusValue).any (fun v => hasSubstr v siwang) = true := by
    rw [List.any_eq_true]
    constructor
    · intro h
      rcases List.mem_flatMap.1 h with ⟨line, hl, hmem⟩
      rcases mem_values_siwang_iff.1 hmem with ⟨v, hv, hc⟩
      exact ⟨v, List.mem_filterMap.2 ⟨line, hl, hv⟩, hc⟩
    · rintro ⟨v, hvmem, hc⟩
      rcases List.mem_filterMap.1 hvmem with ⟨line, hl, hv⟩
      exact List.mem_flatMap.2 ⟨line, hl, mem_values_siwang_iff.2 ⟨v, hv, hc⟩⟩
  have hshi : shixiao ∈ lines.flatMap statusValuesOfLine ↔
      (lines.filterMap normalizedStatusValue).any (fun v => hasSubstr v shixiao) = true := by
    rw [List.any_eq_true]
    constructor
    · intro h
      rcases List.mem_flatMap.1 h with ⟨line, hl, hmem⟩
      rcases mem_values_shixiao_iff.1 hmem with ⟨v, hv, hc⟩
      exact ⟨v, List.mem_filterMap.2 ⟨line, hl, hv⟩, hc⟩
    · rintro ⟨v, hvmem, hc⟩
      rcases List.mem_filterMap.1 hvmem with ⟨line, hl, hv⟩
      exact List.mem_flatMap.2 ⟨line, hl, mem_values_shixiao_iff.2 ⟨v, hv, hc⟩⟩
  by_cases h0 : lines.flatMap statusValuesOfLine = []
  · rw [if_pos h0]
    have hno1 : ¬ (lines.filterMap normalizedStatusValue).any
        (fun v => hasSubstr v siwang) = true := by
      intro hc
      have := hsiw.2 hc
      rw [h0] at this
      cases this
    have hno2 : ¬ (lines.filterMap normalizedStatusValue).any
        (fun v => hasSubstr v shixiao) = true := by
      intro hc
      have := hshi.2 hc
      rw [h0] at this
      cases this
    rw [if_neg hno1, if_neg hno2]
    have htok : lines.flatMap statusTokensOfLine = [] := by
      rw [List.eq_nil_iff_forall_not_mem]
      intro t ht
      rcases List.mem_flatMap.1 ht with ⟨line, hl, hmem⟩
      have : t ∈ lines.flatMap statusValuesOfLine :=
        List.mem_flatMap.2 ⟨line, hl, statusTokensOfLine_mem_values hmem⟩
      rw [h0] at this
      cases this
    rw [htok]
    rfl
  · rw [if_neg h0]
    by_cases h1 : siwang ∈ lines.flatMap statusValuesOfLine
    · rw [if_pos h1, if_pos (hsiw.1 h1)]
    · rw [if_neg h1, if_neg (fun hc => h1 (hsiw.2 hc))]
      by_cases h2 : shixiao ∈ lines.flatMap statusValuesOfLine
      · rw [if_pos h2, if_pos (hshi.1 h2)]
      · rw [if_neg h2, if_neg (fun hc => h2 (hshi.2 hc))]
        have heach : ∀ line ∈ lines, statusValuesOfLine line = statusTokensOfLine line := by
          intro line hl
          apply statusValuesOfLine_eq_tokens
          intro v hv
          constructor
          · by_contra hc
            rw [Bool.not_eq_false] at hc
            exact h1 (List.mem_flatMap.2 ⟨line, hl, mem_values_siwang_iff.2 ⟨v, hv, hc⟩⟩)
          · by_contra hc
            rw [Bool.not_eq_false] at hc
            exact h2 (List.mem_flatMap.2 ⟨line, hl, mem_values_shixiao_iff.2 ⟨v, hv, hc⟩⟩)
        rw [flatMap_congr_of_mem heach]

/-- Delimiter class of the alias split regex `[，,]` (no `+`: every single
delimiter separates). -/
def isAliasDelim (c : Char) : Bool := c = '，' || c = ','

/-- JS `rawValue.split(/[，,]/)`: split at every single delimiter. -/
def splitAliasGo (cur : LC) : LC → List LC
  | [] => [cur.reverse]
  | c :: rest =>
    if isAliasDelim c then cur.reverse :: splitAliasGo [] rest
    else splitAliasGo (c :: cur) rest

/-- `rawValue.split(/[，,]/)` from a clean start. -/
def splitAliasVal (s : LC) : List LC := splitAliasGo [] s

/-- `[...new Set(xs)]`: keep the first occurrence of each element. -/
def dedupKeepFirstGo (seen : List LC) : List LC → List LC
  | [] => []
  | x :: xs =>
    if x ∈ seen then dedupKeepFirstGo seen xs
    else x :: dedupKeepFirstGo (x :: seen) xs

/-- `[...new Set(xs)]` from an empty seen-set. -/
def dedupKeepFirst (xs : List LC) : List LC := dedupKeepFirstGo [] xs

/-- The literal tag `【别名】`. -/
def aliasTag : LC := ("【别名】").toList

/-- `HighlightManager.extractAliases`: for every line carrying `【别名】`,
split the trimmed value on `，`/`,`, keep trimmed nonempty pieces,
deduplicate across lines. -/
def extractAliases (lines : Lines) : List LC :=
  dedupKeepFirst (lines.flatMap fun line =>
    match afterTag aliasTag line with
    | none => []
    | some sliced =>
      let rawValue := trimL sliced
      if rawValue = [] then []
      else ((splitAliasVal rawValue).map trimL).filter (· ≠ []))

/-- The regex test `/【[^】]+】/.test(line)`: somewhere a `【`, at least one
non-`】` character, then a `】`. -/
def hasTagMarker : LC → Bool
  | [] => false
  | c :: rest =>
    (if c = '【' then
      (let seg := rest.takeWhile (fun d => d ≠ '】')
       decide (seg ≠ []) && decide ((rest.drop seg.length).head? = some '】'))
     else false) || hasTagMarker rest

/-- The regex replace `line.replace(/^[-*+]\s+/, "")`: strip one leading
list marker followed by its whitespace run. -/
def stripListMarker (l : LC) : LC :=
  match l with
  | [] => []
  | c :: rest =>
    if (c = '-' || c = '*' || c = '+') &&
        (match rest.head? with
         | some d => d.isWhitespace
         | none => false) then
      rest.dropWhile Char.isWhitespace
    else l

/-- `HighlightManager.extractBodyLines`: trim, drop empties, drop tag-marker
lines, strip list markers, trim again, drop empties. -/
def extractBodyLines (lines : Lines) : Lines :=
  ((((lines.map trimL).filter (fun l => l ≠ [])).filter
      (fun l => ¬ hasTagMarker l)).map (fun l => trimL (stripListMarker l))).filter
    (fun l => l ≠ [])

/-- One H3 sub-entry of an Entry: title plus its own status/alias/body data
(`HighlightManager.extractH3Sections` element). -/
structure H3Section where
  title : LC
  status : Option LC
  aliases : List LC
  bodyLines : Lines
deriving DecidableEq

/-- Literal `### `. -/
def h3Marker : LC := ("### ").toList

/-- Literal `#### `. -/
def h4Marker : LC := ("#### ").toList

/-- Flushing helper of `extractH3Sections`: emit the open section unless the
title is empty. -/
def h3Flush (currentTitle : LC) (currentLines : Lines) : List H3Section :=
  if currentTitle = [] then []
  else [{ title := currentTitle,
          status := extractPreferredStatus currentLines,
          aliases := extractAliases currentLines,
          bodyLines := extractBodyLines currentLines }]

/-- `HighlightManager.extractH3Sections`: scan the Entry's content lines for
`### ` headings (but not `#### `), collecting each section's lines. -/
def extractH3Go (currentTitle : LC) (currentLines : Lines) : Lines → List H3Section
  | [] => h3Flush currentTitle currentLines
  | line :: rest =>
    let trimmed := trimL line
    if h3Marker.isPrefixOf trimmed && ! h4Marker.isPrefixOf trimmed then
      h3Flush currentTitle currentLines ++ extractH3Go (trimL (trimmed.drop 4)) [] rest
    else if currentTitle ≠ [] then extractH3Go currentTitle (currentLines ++ [line]) rest
    else extractH3Go currentTitle currentLines rest

/-- `extractH3Sections` from the clean start. -/
def extractH3Sections (lines : Lines) : List H3Section := extractH3Go [] [] lines

/-- `KeywordPreviewData` of the highlight manager. -/
structure PreviewData where
  keyword : LC
  filePath : LC
  fileName : LC
  h1Title : LC
  h2Title : LC
  status : Option LC
  aliases : List LC
  bodyLines : Lines
deriving DecidableEq

/-- One parsed H2 entry (`H2Info` of the file parser). -/
structure H2Entry where
  text : LC
  lineNumber : Nat
  content : Lines
deriving DecidableEq

/-- One parsed H1 section (`H1Info` of the file parser). -/
structure H1Entry where
  text : LC
  lineNumber : Nat
  h2List : List H2Entry
deriving DecidableEq

/-- One parsed file (`FileParseResult`). -/
structure PFile where
  filePath : LC
  fileName : LC
  h1List : List H1Entry
deriving DecidableEq

/-- The mutable triple `(keywords, previewMap, groupMap)` built by
`extractKeywordsFromSettingFolder`; maps are modelled as insertion-ordered
association lists (JS `Map`/`Set` iterate in insertion order). -/
structure IndexState where
  keywords : List LC
  previewMap : List (LC × PreviewData)
  groupMap : List (LC × LC)
deriving DecidableEq

/-- The empty index state. -/
def IndexState.empty : IndexState := ⟨[], [], []⟩

/-- `HighlightManager.addKeywordVariant`: trim the variant, skip empties and
already-registered keys (first registrant wins), otherwise register the key
in all three collections. -/
def addKeywordVariant (st : IndexState) (variant : LC) (pd : PreviewData) (gid : LC) :
    IndexState :=
  let normalized := trimL variant
  if normalized = [] then st
  else if (st.previewMap.lookup normalized).isSome then st
  else { keywords := st.keywords ++ [normalized],
         previewMap := st.previewMap ++ [(normalized, pd)],
         groupMap := st.groupMap ++ [(normalized, gid)] }

/-- The groupId string `h2::${filePath}::${h1.text}::${h2.text}`. -/
def groupIdH2 (fp h1Text h2Text : LC) : LC :=
  ("h2::").toList ++ fp ++ ("::").toList ++ h1Text ++ ("::").toList ++ h2Text

/-- The groupId string `h3::${filePath}::${h1.text}::${h2.text}::${h3.title}`. -/
def groupIdH3 (fp h1Text h2Text h3Title : LC) : LC :=
  ("h3::").toList ++ fp ++ ("::").toList ++ h1Text ++ ("::").toList ++ h2Text ++
    ("::").toList ++ h3Title

/-- All `addKeywordVariant` call arguments issued while processing one H2
entry, in source order: the primary keyword, its aliases, then per H3
section the title and its aliases. -/
def h2VariantCalls (fp fn : LC) (h1 : H1Entry) (h2 : H2Entry) :
    List (LC × PreviewData × LC) :=
  let keyword := trimL h2.text
  if keyword = [] then []
  else
    let h2Aliases := extractAliases h2.content
    let gid := groupIdH2 fp h1.text h2.text
    let pd : PreviewData :=
      { keyword := keyword, filePath := fp, fileName := fn, h1Title := h1.text,
        h2Title := h2.text, status := extractPreferredStatus h2.content,
        aliases := h2Aliases, bodyLines := extractBodyLines h2.content }
    ((keyword, pd, gid) :: h2Aliases.map (fun a => (a, pd, gid))) ++
      (extractH3Sections h2.content).flatMap (fun h3 =>
        if h3.title = [] then []
        else
          let gid3 := groupIdH3 fp h1.text h2.text h3.title
          let pd3 : PreviewData :=
            { keyword := h3.title, filePath := fp, fileName := fn, h1Title := h1.text,
              h2Title := h2.text, status := h3.status, aliases := h3.aliases,
              bodyLines := h3.bodyLines }
          (h3.title, pd3, gid3) :: h3.aliases.map (fun a => (a, pd3, gid3)))

/-- All `addKeywordVariant` call arguments of a whole folder build, in the
order the nested loops of `extractKeywordsFromSettingFolder` issue them. -/
def folderVariantCalls (files : List PFile) : List (LC × PreviewData × LC) :=
  files.flatMap fun f =>
    f.h1List.flatMap fun h1 =>
      h1.h2List.flatMap fun h2 => h2VariantCalls f.filePath f.fileName h1 h2

/-- Replay a list of `addKeywordVariant` calls on a state. -/
def applyCalls (st : IndexState) (calls : List (LC × PreviewData × LC)) : IndexState :=
  calls.foldl (fun s c => addKeywordVariant s c.1 c.2.1 c.2.2) st

/-- The index built by `extractKeywordsFromSettingFolder` over the parsed
files of a reference folder (registration part of the function). -/
def buildIndex (files : List PFile) : IndexState :=
  applyCalls IndexState.empty (folderVariantCalls files)

/-- Spec-side characterization: the group of a key is the groupId of its
first registration event (a call whose trimmed variant equals the key and is
nonempty). -/
def firstRegGroup (calls : List (LC × PreviewData × LC)) (k : LC) : Option LC :=
  (calls.filter (fun c => trimL c.1 ≠ [])).find? (fun c => trimL c.1 = k) |>.map (·.2.2)

theorem lookup_cons_eq {β : Type} (k k' : LC) (v : β) (l : List (LC × β)) :
    List.lookup k ((k', v) :: l) = if k = k' then some v else List.lookup k l := by
  by_cases h : k = k'
  · simp [List.lookup_cons, h]
  · have hb : (k == k') = false := beq_eq_false_iff_ne.2 h
    simp [List.lookup_cons, hb, h]

/-- The previewMap and groupMap of an index state register exactly the same
keys (they are only ever extended together). -/
def KeysAligned (st : IndexState) : Prop :=
  ∀ k, (st.previewMap.lookup k).isSome ↔ (st.groupMap.lookup k).isSome

theorem keysAligned_empty : KeysAligned IndexState.empty := by
  intro k
  simp [IndexState.empty]

theorem keysAligned_addKeywordVariant {st : IndexState} (h : KeysAligned st)
    (variant : LC) (pd : PreviewData) (gid : LC) :
    KeysAligned (addKeywordVariant st variant pd gid) := by
  unfold addKeywordVariant
  by_cases h1 : trimL variant = []
  · rw [if_pos h1]; exact h
  · rw [if_neg h1]
    by_cases h2 : (st.previewMap.lookup (trimL variant)).isSome
    · rw [if_pos h2]; exact h
    · rw [if_neg h2]
      intro k
      simp only [List.lookup_append]
      rcases hp : st.previewMap.lookup k with _ | pv
      · rcases hg : st.groupMap.lookup k with _ | gv
        · simp [lookup_cons_eq]
        · exfalso
          have := (h k).2 (by rw [hg]; exact rfl)
          rw [hp] at this
          cases this
      · have := (h k).1 (by rw [hp]; exact rfl)
        rcases hg : st.groupMap.lookup k with _ | gv
        · rw [hg] at this; cases this
        · simp

theorem addKeywordVariant_groupMap_lookup (st : IndexState) (h : KeysAligned st)
    (variant : LC) (pd : PreviewData) (gid : LC) (k : LC) :
    (addKeywordVariant st variant pd gid).groupMap.lookup k =
      match st.groupMap.lookup k with
      | some g => some g
      | none => if trimL variant ≠ [] ∧ trimL variant = k then some gid else none := by
  unfold addKeywordVariant
  by_cases h1 : trimL variant = []
  · rw [if_pos h1]
    rcases hg : st.groupMap.lookup k with _ | g <;> simp [h1]
  · rw [if_neg h1]
    by_cases h2 : (st.previewMap.lookup (trimL variant)).isSome
    · -- already registered: no change; if the key matches, the map already has it
      rw [if_pos h2]
      rcases hg : st.groupMap.lookup k with _ | g
      · simp only
        by_cases hk : trimL variant = k
        · exfalso
          have := (h (trimL variant)).1 h2
          rw [hk, hg] at this
          cases this
        · simp [h1, hk]
      · simp
    · rw [if_neg h2]
      simp only [List.lookup_append]
      rcases hg : st.groupMap.lookup k with _ | g
      · simp only [Option.none_or]
        by_cases hk : k = trimL variant
        · subst hk
          simp [lookup_cons_eq, h1]
        · rw [lookup_cons_eq]
          rw [if_neg hk]
          simp only [List.lookup_nil]
          have : ¬ (trimL variant ≠ [] ∧ trimL variant = k) := by
            rintro ⟨-, hkk⟩
            exact hk hkk.symm
          simp [this]
      · simp

theorem applyCalls_groupMap_lookup (calls : List (LC × PreviewData × LC)) :
    ∀ (st : IndexState), KeysAligned st → ∀ k,
      (applyCalls st calls).groupMap.lookup k =
        match st.groupMap.lookup k with
        | some g => some g
        | none => firstRegGroup calls k := by
  induction calls with
  | nil =>
    intro st hst k
    rcases hg : st.groupMap.lookup k with _ | g <;> simp [applyCalls, firstRegGroup, hg]
  | cons c cs ih =>
    intro st hst k
    have hstep : applyCalls st (c :: cs) = applyCalls (addKeywordVariant st c.1 c.2.1 c.2.2) cs := rfl
    rw [hstep, ih _ (keysAligned_addKeywordVariant hst c.1 c.2.1 c.2.2) k,
      addKeywordVariant_groupMap_lookup st hst c.1 c.2.1 c.2.2 k]
    rcases hg : st.groupMap.lookup k with _ | g
    · simp only
      by_cases hv : trimL c.1 ≠ [] ∧ trimL c.1 = k
      · rw [if_pos hv]
        unfold firstRegGroup
        rw [List.filter_cons, if_pos (by simpa using hv.1)]
        simp [List.find?_cons, hv.2]
      · rw [if_neg hv]
        simp only
        unfold firstRegGroup
        by_cases h1 : trimL c.1 = []
        · rw [List.filter_cons, if_neg (by simpa using h1)]
        · have hk : trimL c.1 ≠ k := fun hkk => hv ⟨h1, hkk⟩
          rw [List.filter_cons, if_pos (by simpa using h1)]
          simp [List.find?_cons, hk]
    · simp

/-- C5 (amended): each keyword key of the built index maps to the groupId of
its *first* registration event — first registrant wins and an existing key is
never overwritten.  Since all registration events of one Entry carry that
Entry's groupId, all variants of an Entry that are first registered by that
Entry share its groupId; a variant already registered by an earlier Entry
keeps the earlier Entry's groupId. -/
theorem groupMap_eq_firstRegistration (files : List PFile) (k : LC) :
    (buildIndex files).groupMap.lookup k = firstRegGroup (folderVariantCalls files) k := by
  have h := applyCalls_groupMap_lookup (folderVariantCalls files) IndexState.empty
    keysAligned_empty k
  rw [buildIndex] at *
  rw [h]
  simp [IndexState.empty]

/-- Content of the colliding entry `B` in the C5 counterexample: its alias
line registers `A`, which an earlier entry already claimed. -/
def c5Content : Lines := [("【别名】A").toList]

/-- Earlier entry with primary title `A`. -/
def c5H2A : H2Entry := { text := ("A").toList, lineNumber := 1, content := [] }

/-- Later entry with primary title `B` and alias `A`. -/
def c5H2B : H2Entry := { text := ("B").toList, lineNumber := 2, content := c5Content }

/-- Section holding both entries. -/
def c5H1 : H1Entry := { text := ("人物").toList, lineNumber := 0, h2List := [c5H2A, c5H2B] }

/-- Reference file of the C5 counterexample. -/
def c5File : PFile :=
  { filePath := ("ref/c.md").toList, fileName := ("c").toList, h1List := [c5H1] }

/-- C5 counterexample: `A` is an alias of entry `B` and `B` is its primary
title, yet `groupByKeyword["A"] ≠ groupByKeyword["B"]` in the built index —
`A` keeps the groupId of the earlier entry `A` (first registrant wins), so
the claimed invariant "all keywords that are primary title or alias of the
same Entry map to the same groupId" fails as stated. -/
theorem alias_group_invariant_counterexample :
    ("A").toList ∈ extractAliases c5H2B.content ∧
    trimL c5H2B.text = ("B").toList ∧
    (buildIndex [c5File]).groupMap.lookup (("A").toList) ≠
      (buildIndex [c5File]).groupMap.lookup (("B").toList) := by decide

/-- Insertion-ordered association-list update with JS `Map.set` semantics:
overwrite in place when present, append when absent. -/
def assocSet {β : Type} (m : List (LC × β)) (k : LC) (v : β) : List (LC × β) :=
  if (m.lookup k).isSome then m.map (fun e => if e.1 = k then (k, v) else e)
  else m ++ [(k, v)]

theorem assocSet_lookup_self {β : Type} (m : List (LC × β)) (k : LC) (v : β) :
    (assocSet m k v).lookup k = some v := by
  unfold assocSet
  by_cases h : (m.lookup k).isSome
  · rw [if_pos h]
    induction m with
    | nil => simp [List.lookup] at h
    | cons e es ih =>
      by_cases he : e.1 = k
      · simp only [List.map_cons, if_pos he]
        rw [lookup_cons_eq]
        simp
      · simp only [List.map_cons, if_neg he]
        rw [lookup_cons_eq, if_neg (fun hk => he hk.symm)]
        apply ih
        rcases e with ⟨k', v'⟩
        rw [lookup_cons_eq, if_neg (fun hk => he hk.symm)] at h
        exact h
  · rw [if_neg h]
    rw [List.lookup_append]
    have hnone : m.lookup k = none := Option.not_isSome_iff_eq_none.1 h
    rw [hnone]
    rw [lookup_cons_eq, if_pos rfl]
    rfl

/-- The cache-and-version state of `HighlightManager`: the three per-folder
caches and the `keywordsVersion` counter. -/
structure HMState where
  keywordsCache : List (LC × List LC)
  keywordPreviewCache : List (LC × List (LC × PreviewData))
  keywordGroupCache : List (LC × List (LC × LC))
  keywordsVersion : Nat
deriving DecidableEq

/-- The manager's freshly constructed state (`keywordsVersion = 0`). -/
def HMState.init : HMState := ⟨[], [], [], 0⟩

/-- `HighlightManager.clearCache`: clear all three caches and bump the
version counter. -/
def clearCache (s : HMState) : HMState :=
  { keywordsCache := [], keywordPreviewCache := [], keywordGroupCache := [],
    keywordsVersion := s.keywordsVersion + 1 }

/-- `HighlightManager.getKeywordsVersion`. -/
def getKeywordsVersion (s : HMState) : Nat := s.keywordsVersion

/-- `HighlightManager.extractKeywordsFromSettingFolder`, with the parsed
files of the folder supplied as environment: serve from cache when all three
caches hold the folder, return empty for an empty folder path, otherwise
build the index and cache it.  The version counter is never touched. -/
def extractKeywordsFromSettingFolder (files : List PFile) (settingFolder : LC)
    (s : HMState) : HMState × List LC :=
  if (s.keywordsCache.lookup settingFolder).isSome ∧
      (s.keywordPreviewCache.lookup settingFolder).isSome ∧
      (s.keywordGroupCache.lookup settingFolder).isSome then
    (s, (s.keywordsCache.lookup settingFolder).getD [])
  else if settingFolder = [] then (s, [])
  else
    let idx := buildIndex files
    ({ s with
        keywordsCache := assocSet s.keywordsCache settingFolder idx.keywords,
        keywordPreviewCache := assocSet s.keywordPreviewCache settingFolder idx.previewMap,
        keywordGroupCache := assocSet s.keywordGroupCache settingFolder idx.groupMap },
      idx.keywords)

/-- C6: the keyword index version counter is strictly monotonic and changes
only on invalidation — `clearCache` increments `getKeywordsVersion` by
exactly one, an index build leaves the version unchanged, and a repeated
build without an intervening invalidation leaves the whole state (hence the
version) unchanged. -/
theorem keywords_version_monotonic (s : HMState) (files : List PFile) (folder : LC) :
    getKeywordsVersion (clearCache s) = getKeywordsVersion s + 1 ∧
    getKeywordsVersion (extractKeywordsFromSettingFolder files folder s).1 =
      getKeywordsVersion s ∧
    (extractKeywordsFromSettingFolder files folder
        (extractKeywordsFromSettingFolder files folder s).1).1 =
      (extractKeywordsFromSettingFolder files folder s).1 := by
  refine ⟨rfl, ?_, ?_⟩
  · unfold extractKeywordsFromSettingFolder
    by_cases h1 : (s.keywordsCache.lookup folder).isSome ∧
        (s.keywordPreviewCache.lookup folder).isSome ∧
        (s.keywordGroupCache.lookup folder).isSome
    · rw [if_pos h1]
    · rw [if_neg h1]
      by_cases h2 : folder = []
      · rw [if_pos h2]
      · rw [if_neg h2]
        rfl
  · unfold extractKeywordsFromSettingFolder
    by_cases h1 : (s.keywordsCache.lookup folder).isSome ∧
        (s.keywordPreviewCache.lookup folder).isSome ∧
        (s.keywordGroupCache.lookup folder).isSome
    · rw [if_pos h1]
      simp only
      rw [if_pos h1]
    · rw [if_neg h1]
      by_cases h2 : folder = []
      · rw [if_pos h2]
        simp only
        rw [if_neg h1, if_pos h2]
      · rw [if_neg h2]
        simp only
        rw [if_pos ⟨by rw [assocSet_lookup_self]; rfl,
          by rw [assocSet_lookup_self]; rfl, by rw [assocSet_lookup_self]; rfl⟩]

/-- The `punctuationCheck` settings object: the master switch and one flag
per rule. -/
structure PunctuationConfig where
  enabled : Bool
  comma : Bool
  period : Bool
  colon : Bool
  semicolon : Bool
  exclamation : Bool
  question : Bool
  doubleQuote : Bool
  singleQuote : Bool
deriving DecidableEq

/-- Replace one character: the body of `replaceChars` for the simple rules
(`matcher` is equality with `t`). -/
def replChar (t r c : Char) : Char := if c = t then r else c

/-- Text component of `replaceChars` with a single-character matcher. -/
def fixSimpleT (t r : Char) (s : LC) : LC := s.map (replChar t r)

/-- Count component of `replaceChars` with a single-character matcher: a
position counts when it matches and actually changes. -/
def fixSimpleCount (t r : Char) (s : LC) : Nat :=
  s.countP (fun c => c = t && c ≠ r)

/-- JS `/\d/.test` on an optional neighbour character (`none` models the
empty string at the text boundary). -/
def digitO : Option Char → Bool
  | some c => c.isDigit
  | none => false

/-- The period matcher of `applyPunctuationFixes`: an ASCII period not
flanked by digits on both sides (neighbours read from the stage input). -/
def periodMatch (prev nxt : Option Char) (c : Char) : Bool :=
  c = '.' && ! (digitO prev && digitO nxt)

/-- Text component of the period `replaceChars` call; `prev` is the original
character to the left of the current position. -/
def fixPeriodT (prev : Option Char) : LC → LC
  | [] => []
  | c :: rest =>
    (if periodMatch prev rest.head? c then '。' else c) :: fixPeriodT (some c) rest

/-- Count component of the period rule. -/
def fixPeriodCount (prev : Option Char) : LC → Nat
  | [] => 0
  | c :: rest =>
    (if periodMatch prev rest.head? c then 1 else 0) + fixPeriodCount (some c) rest

/-- Text component of `normalizeQuotePairs`: every character of `quoteChars`
becomes the expected quote, alternating open/close starting from
"expect open". -/
def normQuotesT (quoteChars : List Char) (oq cq : Char) (needOpen : Bool) : LC → LC
  | [] => []
  | c :: rest =>
    if c ∈ quoteChars then
      (if needOpen then oq else cq) :: normQuotesT quoteChars oq cq (!needOpen) rest
    else c :: normQuotesT quoteChars oq cq needOpen rest

/-- Count component of `normalizeQuotePairs`. -/
def normQuotesCount (quoteChars : List Char) (oq cq : Char) (needOpen : Bool) : LC → Nat
  | [] => 0
  | c :: rest =>
    if c ∈ quoteChars then
      (if c ≠ (if needOpen then oq else cq) then 1 else 0) +
        normQuotesCount quoteChars oq cq (!needOpen) rest
    else normQuotesCount quoteChars oq cq needOpen rest

/-- The double-quote character set `["\"", "“", "”"]`. -/
def dqChars : List Char := ['"', '“', '”']

/-- The single-quote character set `["'", "‘", "’"]`. -/
def sqChars : List Char := ['\'', '‘', '’']

/-- Comma stage of `applyPunctuationFixes`. -/
def stComma (cfg : PunctuationConfig) (s : LC) : LC :=
  if cfg.comma then fixSimpleT ',' '，' s else s

/-- Period stage of `applyPunctuationFixes`. -/
def stPeriod (cfg : PunctuationConfig) (s : LC) : LC :=
  if cfg.period then fixPeriodT none s else s

/-- Semicolon stage of `applyPunctuationFixes`. -/
def stSemi (cfg : PunctuationConfig) (s : LC) : LC :=
  if cfg.semicolon then fixSimpleT ';' '；' s else s

/-- Exclamation stage of `applyPunctuationFixes`. -/
def stExcl (cfg : PunctuationConfig) (s : LC) : LC :=
  if cfg.exclamation then fixSimpleT '!' '！' s else s

/-- Question stage of `applyPunctuationFixes`. -/
def stQuestion (cfg : PunctuationConfig) (s : LC) : LC :=
  if cfg.question then fixSimpleT '?' '？' s else s

/-- Colon stage of `applyPunctuationFixes`. -/
def stColon (cfg : PunctuationConfig) (s : LC) : LC :=
  if cfg.colon then fixSimpleT ':' '：' s else s

/-- Double-quote stage of `applyPunctuationFixes`. -/
def stDouble (cfg : PunctuationConfig) (s : LC) : LC :=
  if cfg.doubleQuote then normQuotesT dqChars '“' '”' true s else s

/-- Single-quote stage of `applyPunctuationFixes`. -/
def stSingle (cfg : PunctuationConfig) (s : LC) : LC :=
  if cfg.singleQuote then normQuotesT sqChars '‘' '’' true s else s

/-- Text component of `applyPunctuationFixes`: the eight gated stages in
source order (comma, period, semicolon, exclamation, question, colon,
double quotes, single quotes); identity when the master switch is off. -/
def applyPunctuationFixesText (cfg : PunctuationConfig) (text : LC) : LC :=
  if ! cfg.enabled then text
  else
    stSingle cfg (stDouble cfg (stColon cfg (stQuestion cfg (stExcl cfg
      (stSemi cfg (stPeriod cfg (stComma cfg text)))))))

/-- Count component of `applyPunctuationFixes` (the summed `changedCount`),
computed over the same intermediate texts. -/
def applyPunctuationFixesCount (cfg : PunctuationConfig) (text : LC) : Nat :=
  if ! cfg.enabled then 0
  else
    let w1 := stComma cfg text
    let w2 := stPeriod cfg w1
    let w3 := stSemi cfg w2
    let w4 := stExcl cfg w3
    let w5 := stQuestion cfg w4
    let w6 := stColon cfg w5
    let w7 := stDouble cfg w6
    (if cfg.comma then fixSimpleCount ',' '，' text else 0) +
      (if cfg.period then fixPeriodCount none w1 else 0) +
      (if cfg.semicolon then fixSimpleCount ';' '；' w2 else 0) +
      (if cfg.exclamation then fixSimpleCount '!' '！' w3 else 0) +
      (if cfg.question then fixSimpleCount '?' '？' w4 else 0) +
      (if cfg.colon then fixSimpleCount ':' '：' w5 else 0) +
      (if cfg.doubleQuote then normQuotesCount dqChars '“' '”' true w6 else 0) +
      (if cfg.singleQuote then normQuotesCount sqChars '‘' '’' true w7 else 0)

/-- `HighlightManager.applyPunctuationFixes`: the fixed text together with
the number of changed positions. -/
def applyPunctuationFixes (cfg : PunctuationConfig) (text : LC) : LC × Nat :=
  (applyPunctuationFixesText cfg text, applyPunctuationFixesCount cfg text)

theorem mem_fixSimpleT {c t r : Char} {s : LC} (h : c ∈ fixSimpleT t r s) :
    c = r ∨ c ∈ s := by
  rcases List.mem_map.1 h with ⟨d, hd, hrepl⟩
  unfold replChar at hrepl
  by_cases hdt : d = t
  · rw [if_pos hdt] at hrepl
    exact Or.inl hrepl.symm
  · rw [if_neg hdt] at hrepl
    exact Or.inr (hrepl ▸ hd)

theorem fixSimpleT_eq_self {t r : Char} {s : LC} (h : t ∉ s) : fixSimpleT t r s = s := by
  induction s with
  | nil => rfl
  | cons d rest ih =>
    unfold fixSimpleT at *
    simp only [List.map_cons]
    have hd : d ≠ t := fun hh => h (hh ▸ List.mem_cons_self d rest)
    rw [List.cons_eq_cons]
    constructor
    · unfold replChar
      rw [if_neg hd]
    · exact ih fun hm => h (List.mem_cons_of_mem d hm)

theorem not_mem_fixSimpleT_self {t r : Char} (hne : t ≠ r) (s : LC) :
    t ∉ fixSimpleT t r s := by
  intro h
  rcases List.mem_map.1 h with ⟨d, -, hrepl⟩
  unfold replChar at hrepl
  by_cases hdt : d = t
  · rw [if_pos hdt] at hrepl
    exact hne hrepl.symm
  · rw [if_neg hdt] at hrepl
    exact hdt (hrepl ▸ rfl)

theorem mem_fixPeriodT {c : Char} {p : Option Char} {s : LC} (h : c ∈ fixPeriodT p s) :
    c = '。' ∨ c ∈ s := by
  induction s generalizing p with
  | nil => cases h
  | cons d rest ih =>
    rw [fixPeriodT] at h
    rcases List.mem_cons.1 h with h1 | h2
    · by_cases hm : periodMatch p rest.head? d = true
      · rw [if_pos hm] at h1
        exact Or.inl h1
      · rw [if_neg hm] at h1
        exact Or.inr (h1 ▸ List.mem_cons_self d rest)
    · rcases ih h2 with h3 | h3
      · exact Or.inl h3
      · exact Or.inr (List.mem_cons_of_mem d h3)

theorem mem_normQuotesT {c oq cq : Char} {qs : List Char} {b : Bool} {s : LC}
    (h : c ∈ normQuotesT qs oq cq b s) : c = oq ∨ c = cq ∨ c ∈ s := by
  induction s generalizing b with
  | nil => cases h
  | cons d rest ih =>
    rw [normQuotesT] at h
    by_cases hd : d ∈ qs
    · rw [if_pos hd] at h
      rcases List.mem_cons.1 h with h1 | h2
      · by_cases hb : b = true
        · subst hb; rw [if_pos rfl] at h1; exact Or.inl h1
        · have : b = false := Bool.eq_false_iff.2 hb
          subst this
          simp only [Bool.false_eq_true, if_false] at h1
          exact Or.inr (Or.inl h1)
      · rcases ih h2 with h3 | h3 | h3
        · exact Or.inl h3
        · exact Or.inr (Or.inl h3)
        · exact Or.inr (Or.inr (List.mem_cons_of_mem d h3))
    · rw [if_neg hd] at h
      rcases List.mem_cons.1 h with h1 | h2
      · exact Or.inr (Or.inr (h1 ▸ List.mem_cons_self d rest))
      · rcases ih h2 with h3 | h3 | h3
        · exact Or.inl h3
        · exact Or.inr (Or.inl h3)
        · exact Or.inr (Or.inr (List.mem_cons_of_mem d h3))

theorem digitO_fixPeriodT_head (p : Option Char) (s : LC) :
    digitO (fixPeriodT p s).head? = digitO s.head? := by
  cases s with
  | nil => rfl
  | cons d rest =>
    rw [fixPeriodT]
    by_cases hm : periodMatch p rest.head? d = true
    · rw [if_pos hm]
      have hd : d = '.' := by
        unfold periodMatch at hm
        rcases Bool.and_eq_true_iff.1 hm with ⟨h1, -⟩
        exact of_decide_eq_true h1
      subst hd
      rfl
    · rw [if_neg hm]
      rfl

theorem fixPeriodT_idem {p q : Option Char} (hd : digitO p = digitO q) (s : LC) :
    fixPeriodT q (fixPeriodT p s) = fixPeriodT p s := by
  induction s generalizing p q with
  | nil => rfl
  | cons c rest ih =>
    rw [fixPeriodT]
    by_cases hm : periodMatch p rest.head? c = true
    · rw [if_pos hm]
      have hc : c = '.' := by
        unfold periodMatch at hm
        exact of_decide_eq_true (Bool.and_eq_true_iff.1 hm).1
      rw [fixPeriodT]
      have hm2 : periodMatch q (fixPeriodT (some c) rest).head? '。' = false := by
        unfold periodMatch
        simp
      rw [hm2]
      simp only [Bool.false_eq_true, if_false]
      congr 1
      exact ih (by subst hc; decide)
    · rw [if_neg hm]
      rw [fixPeriodT]
      have hm2 : ¬ periodMatch q (fixPeriodT (some c) rest).head? c = true := by
        intro h2
        unfold periodMatch at hm h2
        rcases Bool.and_eq_true_iff.1 h2 with ⟨h2a, h2b⟩
        rw [digitO_fixPeriodT_head] at h2b
        rw [← hd] at h2b
        apply hm
        rw [h2a, h2b]
        rfl
      rw [if_neg hm2]
      congr 1
      exact ih rfl

theorem digitO_map_head {g : Char → Char} (hg2 : ∀ c, (g c).isDigit = c.isDigit)
    (s : LC) : digitO (s.map g).head? = digitO s.head? := by
  cases s with
  | nil => rfl
  | cons d rest => exact hg2 d

theorem fixPeriodT_map_comm {g : Char → Char}
    (hg1 : ∀ c, g c = '.' ↔ c = '.') (hg2 : ∀ c, (g c).isDigit = c.isDigit)
    (hg3 : g '。' = '。') {p p' : Option Char} (hpp : digitO p = digitO p') (s : LC) :
    fixPeriodT p (s.map g) = (fixPeriodT p' s).map g := by
  induction s generalizing p p' with
  | nil => rfl
  | cons c rest ih =>
    simp only [List.map_cons]
    rw [fixPeriodT, fixPeriodT]
    have hmeq : periodMatch p (rest.map g).head? (g c) = periodMatch p' rest.head? c := by
      unfold periodMatch
      rw [digitO_map_head hg2 rest, hpp]
      congr 1
      by_cases hc : c = '.'
      · rw [decide_eq_true ((hg1 c).2 hc), decide_eq_true hc]
      · rw [decide_eq_false (fun hh => hc ((hg1 c).1 hh)), decide_eq_false hc]
    rw [hmeq]
    by_cases hm : periodMatch p' rest.head? c = true
    · rw [if_pos hm, if_pos hm]
      simp only [List.map_cons]
      rw [hg3, List.cons_eq_cons]
      exact ⟨rfl, ih (by rw [digitO, digitO, hg2]) ⟩
    · rw [if_neg hm, if_neg hm]
      simp only [List.map_cons]
      rw [List.cons_eq_cons]
      exact ⟨rfl, ih (by rw [digitO, digitO, hg2])⟩

theorem digitO_normQuotesT_head {qs : List Char} {oq cq : Char}
    (hq3 : ∀ c ∈ qs, c.isDigit = false) (hq5 : oq.isDigit = false ∧ cq.isDigit = false)
    (b : Bool) (s : LC) : digitO (normQuotesT qs oq cq b s).head? = digitO s.head? := by
  cases s with
  | nil => rfl
  | cons d rest =>
    rw [normQuotesT]
    by_cases hd : d ∈ qs
    · rw [if_pos hd]
      show digitO (some (if b then oq else cq)) = digitO (some d)
      rw [digitO, digitO, hq3 d hd]
      by_cases hb : b = true
      · subst hb; rw [if_pos rfl, hq5.1]
      · rw [if_neg hb, hq5.2]
    · rw [if_neg hd]
      rfl

theorem fixPeriodT_normQuotesT_comm {qs : List Char} {oq cq : Char}
    (hq1 : '.' ∉ qs) (hq2 : '。' ∉ qs) (hq3 : ∀ c ∈ qs, c.isDigit = false)
    (hq4 : oq ≠ '.' ∧ cq ≠ '.') (hq5 : oq.isDigit = false ∧ cq.isDigit = false)
    {p p' : Option Char} (hpp : digitO p = digitO p') (b : Bool) (s : LC) :
    fixPeriodT p (normQuotesT qs oq cq b s) = normQuotesT qs oq cq b (fixPeriodT p' s) := by
  induction s generalizing p p' b with
  | nil => rfl
  | cons c rest ih =>
    rw [normQuotesT, fixPeriodT]
    by_cases hc : c ∈ qs
    · rw [if_pos hc, fixPeriodT]
      have hcq : (if b then oq else cq) ≠ '.' := by
        by_cases hb : b = true
        · subst hb; rw [if_pos rfl]; exact hq4.1
        · rw [if_neg hb]; exact hq4.2
      have hpm : periodMatch p (normQuotesT qs oq cq (!b) rest).head? (if b then oq else cq)
          = false := by
        unfold periodMatch
        rw [decide_eq_false hcq]
        rfl
      rw [hpm]
      have hcnp : periodMatch p' rest.head? c = false := by
        unfold periodMatch
        rw [decide_eq_false (fun hh : c = '.' => hq1 (hh ▸ hc))]
        rfl
      rw [hcnp]
      simp only [Bool.false_eq_true, if_false]
      rw [normQuotesT, if_pos hc, List.cons_eq_cons]
      refine ⟨rfl, ih ?_ (!b)⟩
      show digitO (some (if b then oq else cq)) = digitO (some c)
      rw [digitO, digitO, hq3 c hc]
      by_cases hb : b = true
      · subst hb; rw [if_pos rfl, hq5.1]
      · rw [if_neg hb, hq5.2]
    · rw [if_neg hc, fixPeriodT]
      have hmeq : periodMatch p (normQuotesT qs oq cq b rest).head? c
          = periodMatch p' rest.head? c := by
        unfold periodMatch
        rw [digitO_normQuotesT_head hq3 hq5 b rest, hpp]
      rw [hmeq]
      by_cases hm : periodMatch p' rest.head? c = true
      · rw [if_pos hm]
        rw [normQuotesT, if_neg hq2, List.cons_eq_cons]
        exact ⟨rfl, ih (by rfl) b⟩
      · rw [if_neg hm]
        rw [normQuotesT, if_neg hc, List.cons_eq_cons]
        exact ⟨rfl, ih (by rfl) b⟩

theorem normQuotesT_idem {qs : List Char} {oq cq : Char}
    (ho : oq ∈ qs) (hc : cq ∈ qs) (b : Bool) (s : LC) :
    normQuotesT qs oq cq b (normQuotesT qs oq cq b s) = normQuotesT qs oq cq b s := by
  induction s generalizing b with
  | nil => rfl
  | cons d rest ih =>
    rw [normQuotesT]
    by_cases hd : d ∈ qs
    · rw [if_pos hd, normQuotesT]
      have hq : (if b then oq else cq) ∈ qs := by
        by_cases hb : b = true
        · subst hb; rw [if_pos rfl]; exact ho
        · rw [if_neg hb]; exact hc
      rw [if_pos hq, List.cons_eq_cons]
      exact ⟨rfl, ih (!b)⟩
    · rw [if_neg hd, normQuotesT, if_neg hd, List.cons_eq_cons]
      exact ⟨rfl, ih b⟩

theorem normQuotesT_comm {qs1 qs2 : List Char} {oq1 cq1 oq2 cq2 : Char}
    (hdisj : ∀ c ∈ qs1, c ∉ qs2)
    (h1 : oq1 ∉ qs2) (h2 : cq1 ∉ qs2) (h3 : oq2 ∉ qs1) (h4 : cq2 ∉ qs1)
    (b1 b2 : Bool) (s : LC) :
    normQuotesT qs1 oq1 cq1 b1 (normQuotesT qs2 oq2 cq2 b2 s) =
      normQuotesT qs2 oq2 cq2 b2 (normQuotesT qs1 oq1 cq1 b1 s) := by
  induction s generalizing b1 b2 with
  | nil => rfl
  | cons d rest ih =>
    by_cases hd1 : d ∈ qs1
    · have hd2 : d ∉ qs2 := hdisj d hd1
      rw [normQuotesT, if_neg hd2, normQuotesT, if_pos hd1]
      rw [normQuotesT, if_pos hd1, normQuotesT]
      have : (if b1 then oq1 else cq1) ∉ qs2 := by
        by_cases hb : b1 = true
        · subst hb; rw [if_pos rfl]; exact h1
        · rw [if_neg hb]; exact h2
      rw [if_neg this, List.cons_eq_cons]
      exact ⟨rfl, ih (!b1) b2⟩
    · by_cases hd2 : d ∈ qs2
      · rw [normQuotesT, if_pos hd2, normQuotesT]
        have : (if b2 then oq2 else cq2) ∉ qs1 := by
          by_cases hb : b2 = true
          · subst hb; rw [if_pos rfl]; exact h3
          · rw [if_neg hb]; exact h4
        rw [if_neg this]
        rw [normQuotesT, if_neg hd1, normQuotesT, if_pos hd2, List.cons_eq_cons]
        exact ⟨rfl, ih b1 (!b2)⟩
      · rw [normQuotesT, if_neg hd2, normQuotesT, if_neg hd1]
        rw [normQuotesT, if_neg hd1, normQuotesT, if_neg hd2, List.cons_eq_cons]
        exact ⟨rfl, ih b1 b2⟩

theorem replChar_eq_iff {t r x : Char} (ht : t ≠ x) (hr : r ≠ x) (c : Char) :
    replChar t r c = x ↔ c = x := by
  unfold replChar
  by_cases hct : c = t
  · rw [if_pos hct]
    constructor
    · intro h; exact absurd h hr
    · intro h; exact absurd (hct.symm.trans h) ht
  · rw [if_neg hct]

theorem replChar_isDigit {t r : Char} (ht : t.isDigit = false) (hr : r.isDigit = false)
    (c : Char) : (replChar t r c).isDigit = c.isDigit := by
  unfold replChar
  by_cases hct : c = t
  · rw [if_pos hct, hr, hct, ht]
  · rw [if_neg hct]

theorem replChar_ideograph_period {t r : Char} (ht : t ≠ '。') :
    replChar t r '。' = '。' := by
  unfold replChar
  rw [if_neg (fun h => ht h.symm)]

theorem fixPeriodT_fixSimpleT_comm {t r : Char}
    (ht1 : t ≠ '.') (hr1 : r ≠ '.') (ht2 : t ≠ '。')
    (ht3 : t.isDigit = false) (hr3 : r.isDigit = false)
    {p p' : Option Char} (hpp : digitO p = digitO p') (s : LC) :
    fixPeriodT p (fixSimpleT t r s) = fixSimpleT t r (fixPeriodT p' s) :=
  fixPeriodT_map_comm (replChar_eq_iff ht1 hr1) (replChar_isDigit ht3 hr3)
    (replChar_ideograph_period ht2) hpp s

theorem mem_stComma {cfg : PunctuationConfig} {c : Char} {s : LC}
    (h : c ∈ stComma cfg s) : c = '，' ∨ c ∈ s := by
  unfold stComma at h
  by_cases hf : cfg.comma = true
  · rw [if_pos hf] at h; exact mem_fixSimpleT h
  · rw [if_neg hf] at h; exact Or.inr h

theorem mem_stPeriod {cfg : PunctuationConfig} {c : Char} {s : LC}
    (h : c ∈ stPeriod cfg s) : c = '。' ∨ c ∈ s := by
  unfold stPeriod at h
  by_cases hf : cfg.period = true
  · rw [if_pos hf] at h; exact mem_fixPeriodT h
  · rw [if_neg hf] at h; exact Or.inr h

theorem mem_stSemi {cfg : PunctuationConfig} {c : Char} {s : LC}
    (h : c ∈ stSemi cfg s) : c = '；' ∨ c ∈ s := by
  unfold stSemi at h
  by_cases hf : cfg.semicolon = true
  · rw [if_pos hf] at h; exact mem_fixSimpleT h
  · rw [if_neg hf] at h; exact Or.inr h

theorem mem_stExcl {cfg : PunctuationConfig} {c : Char} {s : LC}
    (h : c ∈ stExcl cfg s) : c = '！' ∨ c ∈ s := by
  unfold stExcl at h
  by_cases hf : cfg.exclamation = true
  · rw [if_pos hf] at h; exact mem_fixSimpleT h
  · rw [if_neg hf] at h; exact Or.inr h

theorem mem_stQuestion {cfg : PunctuationConfig} {c : Char} {s : LC}
    (h : c ∈ stQuestion cfg s) : c = '？' ∨ c ∈ s := by
  unfold stQuestion at h
  by_cases hf : cfg.question = true
  · rw [if_pos hf] at h; exact mem_fixSimpleT h
  · rw [if_neg hf] at h; exact Or.inr h

theorem mem_stColon {cfg : PunctuationConfig} {c : Char} {s : LC}
    (h : c ∈ stColon cfg s) : c = '：' ∨ c ∈ s := by
  unfold stColon at h
  by_cases hf : cfg.colon = true
  · rw [if_pos hf] at h; exact mem_fixSimpleT h
  · rw [if_neg hf] at h; exact Or.inr h

theorem mem_stDouble {cfg : PunctuationConfig} {c : Char} {s : LC}
    (h : c ∈ stDouble cfg s) : c = '“' ∨ c = '”' ∨ c ∈ s := by
  unfold stDouble at h
  by_cases hf : cfg.doubleQuote = true
  · rw [if_pos hf] at h; exact mem_normQuotesT h
  · rw [if_neg hf] at h; exact Or.inr (Or.inr h)

theorem mem_stSingle {cfg : PunctuationConfig} {c : Char} {s : LC}
    (h : c ∈ stSingle cfg s) : c = '‘' ∨ c = '’' ∨ c ∈ s := by
  unfold stSingle at h
  by_cases hf : cfg.singleQuote = true
  · rw [if_pos hf] at h; exact mem_normQuotesT h
  · rw [if_neg hf] at h; exact Or.inr (Or.inr h)

theorem fixPeriod_stSemi_comm (cfg : PunctuationConfig) (s : LC) :
    fixPeriodT none (stSemi cfg s) = stSemi cfg (fixPeriodT none s) := by
  unfold stSemi
  by_cases hf : cfg.semicolon = true
  · rw [if_pos hf, if_pos hf]
    exact fixPeriodT_fixSimpleT_comm (by decide) (by decide) (by decide)
      (by decide) (by decide) rfl s
  · rw [if_neg hf, if_neg hf]

theorem fixPeriod_stExcl_comm (cfg : PunctuationConfig) (s : LC) :
    fixPeriodT none (stExcl cfg s) = stExcl cfg (fixPeriodT none s) := by
  unfold stExcl
  by_cases hf : cfg.exclamation = true
  · rw [if_pos hf, if_pos hf]
    exact fixPeriodT_fixSimpleT_comm (by decide) (by decide) (by decide)
      (by decide) (by decide) rfl s
  · rw [if_neg hf, if_neg hf]

theorem fixPeriod_stQuestion_comm (cfg : PunctuationConfig) (s : LC) :
    fixPeriodT none (stQuestion cfg s) = stQuestion cfg (fixPeriodT none s) := by
  unfold stQuestion
  by_cases hf : cfg.question = true
  · rw [if_pos hf, if_pos hf]
    exact fixPeriodT_fixSimpleT_comm (by decide) (by decide) (by decide)
      (by decide) (by decide) rfl s
  · rw [if_neg hf, if_neg hf]

theorem fixPeriod_stColon_comm (cfg : PunctuationConfig) (s : LC) :
    fixPeriodT none (stColon cfg s) = stColon cfg (fixPeriodT none s) := by
  unfold stColon
  by_cases hf : cfg.colon = true
  · rw [if_pos hf, if_pos hf]
    exact fixPeriodT_fixSimpleT_comm (by decide) (by decide) (by decide)
      (by decide) (by decide) rfl s
  · rw [if_neg hf, if_neg hf]

theorem fixPeriod_stDouble_comm (cfg : PunctuationConfig) (s : LC) :
    fixPeriodT none (stDouble cfg s) = stDouble cfg (fixPeriodT none s) := by
  unfold stDouble
  by_cases hf : cfg.doubleQuote = true
  · rw [if_pos hf, if_pos hf]
    exact fixPeriodT_normQuotesT_comm (by decide) (by decide) (by decide)
      (by decide) (by decide) rfl true s
  · rw [if_neg hf, if_neg hf]

theorem fixPeriod_stSingle_comm (cfg : PunctuationConfig) (s : LC) :
    fixPeriodT none (stSingle cfg s) = stSingle cfg (fixPeriodT none s) := by
  unfold stSingle
  by_cases hf : cfg.singleQuote = true
  · rw [if_pos hf, if_pos hf]
    exact fixPeriodT_normQuotesT_comm (by decide) (by decide) (by decide)
      (by decide) (by decide) rfl true s
  · rw [if_neg hf, if_neg hf]

theorem applyPunctuationFixesText_idem (cfg : PunctuationConfig) (text : LC) :
    applyPunctuationFixesText cfg (applyPunctuationFixesText cfg text) =
      applyPunctuationFixesText cfg text := by
  unfold applyPunctuationFixesText
  by_cases he : (! cfg.enabled) = true
  · rw [if_pos he, if_pos he]
  · rw [if_neg he, if_neg he]
    set w1 := stComma cfg text with hw1
    set w2 := stPeriod cfg w1 with hw2
    set w3 := stSemi cfg w2 with hw3
    set w4 := stExcl cfg w3 with hw4
    set w5 := stQuestion cfg w4 with hw5
    set w6 := stColon cfg w5 with hw6
    set w7 := stDouble cfg w6 with hw7
    set w8 := stSingle cfg w7 with hw8
    have habs_comma : cfg.comma = true → ',' ∉ w8 := by
      intro hf
      have h1 : ',' ∉ w1 := by
        rw [hw1]; unfold stComma; rw [if_pos hf]
        exact not_mem_fixSimpleT_self (by decide) text
      have h2 : ',' ∉ w2 := fun hm =>
        (mem_stPeriod (hw2 ▸ hm)).elim (fun h => absurd h (by decide)) h1
      have h3 : ',' ∉ w3 := fun hm =>
        (mem_stSemi (hw3 ▸ hm)).elim (fun h => absurd h (by decide)) h2
      have h4 : ',' ∉ w4 := fun hm =>
        (mem_stExcl (hw4 ▸ hm)).elim (fun h => absurd h (by decide)) h3
      have h5 : ',' ∉ w5 := fun hm =>
        (mem_stQuestion (hw5 ▸ hm)).elim (fun h => absurd h (by decide)) h4
      have h6 : ',' ∉ w6 := fun hm =>
        (mem_stColon (hw6 ▸ hm)).elim (fun h => absurd h (by decide)) h5
      have h7 : ',' ∉ w7 := fun hm =>
        (mem_stDouble (hw7 ▸ hm)).elim (fun h => absurd h (by decide))
          (fun h => h.elim (fun h' => absurd h' (by decide)) h6)
      exact fun hm =>
        (mem_stSingle (hw8 ▸ hm)).elim (fun h => absurd h (by decide))
          (fun h => h.elim (fun h' => absurd h' (by decide)) h7)
    have habs_semi : cfg.semicolon = true → ';' ∉ w3 := by
      intro hf
      rw [hw3]; unfold stSemi; rw [if_pos hf]
      exact not_mem_fixSimpleT_self (by decide) w2
    have habs_semi8 : cfg.semicolon = true → ';' ∉ w8 := by
      intro hf
      have h4 : ';' ∉ w4 := fun hm =>
        (mem_stExcl (hw4 ▸ hm)).elim (fun h => absurd h (by decide)) (habs_semi hf)
      have h5 : ';' ∉ w5 := fun hm =>
        (mem_stQuestion (hw5 ▸ hm)).elim (fun h => absurd h (by decide)) h4
      have h6 : ';' ∉ w6 := fun hm =>
        (mem_stColon (hw6 ▸ hm)).elim (fun h => absurd h (by decide)) h5
      have h7 : ';' ∉ w7 := fun hm =>
        (mem_stDouble (hw7 ▸ hm)).elim (fun h => absurd h (by decide))
          (fun h => h.elim (fun h' => absurd h' (by decide)) h6)
      exact fun hm =>
        (mem_stSingle (hw8 ▸ hm)).elim (fun h => absurd h (by decide))
          (fun h => h.elim (fun h' => absurd h' (by decide)) h7)
    have habs_excl8 : cfg.exclamation = true → '!' ∉ w8 := by
      intro hf
      have h4 : '!' ∉ w4 := by
        rw [hw4]; unfold stExcl; rw [if_pos hf]
        exact not_mem_fixSimpleT_self (by decide) w3
      have h5 : '!' ∉ w5 := fun hm =>
        (mem_stQuestion (hw5 ▸ hm)).elim (fun h => absurd h (by decide)) h4
      have h6 : '!' ∉ w6 := fun hm =>
        (mem_stColon (hw6 ▸ hm)).elim (fun h => absurd h (by decide)) h5
      have h7 : '!' ∉ w7 := fun hm =>
        (mem_stDouble (hw7 ▸ hm)).elim (fun h => absurd h (by decide))
          (fun h => h.elim (fun h' => absurd h' (by decide)) h6)
      exact fun hm =>
        (mem_stSingle (hw8 ▸ hm)).elim (fun h => absurd h (by decide))
          (fun h => h.elim (fun h' => absurd h' (by decide)) h7)
    have habs_quest8 : cfg.question = true → '?' ∉ w8 := by
      intro hf
      have h5 : '?' ∉ w5 := by
        rw [hw5]; unfold stQuestion; rw [if_pos hf]
        exact not_mem_fixSimpleT_self (by decide) w4
      have h6 : '?' ∉ w6 := fun hm =>
        (mem_stColon (hw6 ▸ hm)).elim (fun h => absurd h (by decide)) h5
      have h7 : '?' ∉ w7 := fun hm =>
        (mem_stDouble (hw7 ▸ hm)).elim (fun h => absurd h (by decide))
          (fun h => h.elim (fun h' => absurd h' (by decide)) h6)
      exact fun hm =>
        (mem_stSingle (hw8 ▸ hm)).elim (fun h => absurd h (by decide))
          (fun h => h.elim (fun h' => absurd h' (by decide)) h7)
    have habs_colon8 : cfg.colon = true → ':' ∉ w8 := by
      intro hf
      have h6 : ':' ∉ w6 := by
        rw [hw6]; unfold stColon; rw [if_pos hf]
        exact not_mem_fixSimpleT_self (by decide) w5
      have h7 : ':' ∉ w7 := fun hm =>
        (mem_stDouble (hw7 ▸ hm)).elim (fun h => absurd h (by decide))
          (fun h => h.elim (fun h' => absurd h' (by decide)) h6)
      exact fun hm =>
        (mem_stSingle (hw8 ▸ hm)).elim (fun h => absurd h (by decide))
          (fun h => h.elim (fun h' => absurd h' (by decide)) h7)
    have hfix_period : cfg.period = true → fixPeriodT none w8 = w8 := by
      intro hf
      have c2 : fixPeriodT none w2 = w2 := by
        rw [hw2]; unfold stPeriod; rw [if_pos hf]
        exact fixPeriodT_idem rfl w1
      have c3 : fixPeriodT none w3 = w3 := by
        rw [hw3, fixPeriod_stSemi_comm, c2]
      have c4 : fixPeriodT none w4 = w4 := by
        rw [hw4, fixPeriod_stExcl_comm, c3]
      have c5 : fixPeriodT none w5 = w5 := by
        rw [hw5, fixPeriod_stQuestion_comm, c4]
      have c6 : fixPeriodT none w6 = w6 := by
        rw [hw6, fixPeriod_stColon_comm, c5]
      have c7 : fixPeriodT none w7 = w7 := by
        rw [hw7, fixPeriod_stDouble_comm, c6]
      rw [hw8, fixPeriod_stSingle_comm, c7]
    have hfix_double : cfg.doubleQuote = true →
        normQuotesT dqChars '“' '”' true w8 = w8 := by
      intro hf
      have c7 : normQuotesT dqChars '“' '”' true w7 = w7 := by
        rw [hw7]; unfold stDouble; rw [if_pos hf]
        exact normQuotesT_idem (by decide) (by decide) true w6
      rw [hw8]; unfold stSingle
      by_cases hs : cfg.singleQuote = true
      · rw [if_pos hs]
        rw [normQuotesT_comm (by decide) (by decide) (by decide) (by decide)
          (by decide) true true w7, c7]
      · rw [if_neg hs]; exact c7
    have hfix_single : cfg.singleQuote = true →
        normQuotesT sqChars '‘' '’' true w8 = w8 := by
      intro hf
      rw [hw8]; unfold stSingle; rw [if_pos hf]
      exact normQuotesT_idem (by decide) (by decide) true w7
    have id1 : stComma cfg w8 = w8 := by
      unfold stComma
      by_cases hf : cfg.comma = true
      · rw [if_pos hf]; exact fixSimpleT_eq_self (habs_comma hf)
      · rw [if_neg hf]
    have id2 : stPeriod cfg w8 = w8 := by
      unfold stPeriod
      by_cases hf : cfg.period = true
      · rw [if_pos hf]; exact hfix_period hf
      · rw [if_neg hf]
    have id3 : stSemi cfg w8 = w8 := by
      unfold stSemi
      by_cases hf : cfg.semicolon = true
      · rw [if_pos hf]; exact fixSimpleT_eq_self (habs_semi8 hf)
      · rw [if_neg hf]
    have id4 : stExcl cfg w8 = w8 := by
      unfold stExcl
      by_cases hf : cfg.exclamation = true
      · rw [if_pos hf]; exact fixSimpleT_eq_self (habs_excl8 hf)
      · rw [if_neg hf]
    have id5 : stQuestion cfg w8 = w8 := by
      unfold stQuestion
      by_cases hf : cfg.question = true
      · rw [if_pos hf]; exact fixSimpleT_eq_self (habs_quest8 hf)
      · rw [if_neg hf]
    have id6 : stColon cfg w8 = w8 := by
      unfold stColon
      by_cases hf : cfg.colon = true
      · rw [if_pos hf]; exact fixSimpleT_eq_self (habs_colon8 hf)
      · rw [if_neg hf]
    have id7 : stDouble cfg w8 = w8 := by
      unfold stDouble
      by_cases hf : cfg.doubleQuote = true
      · rw [if_pos hf]; exact hfix_double hf
      · rw [if_neg hf]
    have id8 : stSingle cfg w8 = w8 := by
      unfold stSingle
      by_cases hf : cfg.singleQuote = true
      · rw [if_pos hf]; exact hfix_single hf
      · rw [if_neg hf]
    rw [id1, id2, id3, id4, id5, id6, id7, id8]

/-- C4: the punctuation auto-fix transform is idempotent — for every input
text and every enabled-rule configuration, applying `applyPunctuationFixes`
twice (including the alternating open/close quote normalization) yields the
same text as applying it once. -/
theorem applyPunctuationFixes_idempotent (cfg : PunctuationConfig) (text : LC) :
    (applyPunctuationFixes cfg (applyPunctuationFixes cfg text).1).1 =
      (applyPunctuationFixes cfg text).1 :=
  applyPunctuationFixesText_idem cfg text

/-- One keyword match candidate `{ from, to, keyword }` collected by
`updateDecorations`. -/
structure KwMatch where
  fromPos : Nat
  toPos : Nat
  keyword : LC
deriving DecidableEq

/-- The match positions found by `regex.exec` with the `g` flag for the
literal (escaped) keyword: repeated leftmost search, resuming after the end
of each match.  `pos` is the absolute position of `rem` in the text. -/
def scanKw (kw : LC) : LC → Nat → List Nat
  | [], _ => []
  | c :: rest, pos =>
    if kw.isPrefixOf (c :: rest) && ! kw.isEmpty then
      pos :: scanKw kw ((c :: rest).drop kw.length) (pos + kw.length)
    else
      scanKw kw rest (pos + 1)
termination_by rem _ => rem.length
decreasing_by
  · simp only [List.length_drop]
    rename_i h
    have hk : kw.length > 0 := by
      rcases Bool.and_eq_true_iff.1 h with ⟨-, h2⟩
      cases kw with
      | nil => simp [List.isEmpty] at h2
      | cons a as => simp
    simp [List.length_cons]
    omega
  · simp

/-- The `matches` array of `updateDecorations`: for every keyword all its
`exec` matches `(from, to, keyword)` over the document text. -/
def collectMatches (text : LC) (keywords : List LC) : List KwMatch :=
  keywords.flatMap fun kw =>
    (scanKw kw text 0).map fun i => ⟨i, i + kw.length, kw⟩

/-- `keywordGroupMap.get(keyword) ?? "kw::" + keyword`: group lookup with
the synthetic singleton fallback for unknown keywords. -/
def groupOf (gm : List (LC × LC)) (kw : LC) : LC :=
  (gm.lookup kw).getD (("kw::").toList ++ kw)

/-- The comparator relation of `matches.sort((a, b) => a.from - b.from)`. -/
def kwLe (a b : KwMatch) : Prop := a.fromPos ≤ b.fromPos

instance : DecidableRel kwLe := fun a b => Nat.decLe a.fromPos b.fromPos

instance : IsTotal KwMatch kwLe := ⟨fun a b => Nat.le_total a.fromPos b.fromPos⟩

instance : IsTrans KwMatch kwLe := ⟨fun _ _ _ h1 h2 => Nat.le_trans h1 h2⟩

/-- The `firstByGroup` map fill of first-occurrence mode: walk the sorted
matches, keeping a match only when its group has no entry yet; the map's
values in insertion order are the kept matches. -/
def keepFirstByGroup (gm : List (LC × LC)) (sortedMatches : List KwMatch) : List KwMatch :=
  sortedMatches.foldl
    (fun acc m =>
      if acc.any (fun p => groupOf gm p.keyword = groupOf gm m.keyword) then acc
      else acc ++ [m])
    []

/-- The `finalMatches` of `"first"` mode: sort all candidates by position
and keep the earliest match per group. -/
def firstModeMatches (gm : List (LC × LC)) (ms : List KwMatch) : List KwMatch :=
  keepFirstByGroup gm (List.insertionSort kwLe ms)

/-- The two highlight modes of `highlightStyle.mode`. -/
inductive HighlightMode where
  | first : HighlightMode
  | all : HighlightMode
deriving DecidableEq

/-- The `finalMatches` selection of `updateDecorations`. -/
def finalMatches (mode : HighlightMode) (gm : List (LC × LC)) (ms : List KwMatch) :
    List KwMatch :=
  if mode = HighlightMode.first then firstModeMatches gm ms else ms

/-- The per-character warning test of `collectPunctuationWarnings` (the
first scan loop): each enabled ASCII rule flags its character, the period
rule exempting a period flanked by digits. -/
def warnAt (cfg : PunctuationConfig) (text : LC) (i : Nat) : Bool :=
  let ch := (text.drop i).headD ' '
  (cfg.comma && ch = ',') ||
    (cfg.period && ch = '.' &&
      ! (digitO (if i = 0 then none else (text.drop (i - 1)).head?) &&
         digitO ((text.drop (i + 1)).head?))) ||
    (cfg.colon && ch = ':') ||
    (cfg.semicolon && ch = ';') ||
    (cfg.exclamation && ch = '!') ||
    (cfg.question && ch = '?') ||
    (cfg.doubleQuote && ch = '"') ||
    (cfg.singleQuote && ch = '\'')

/-- The full-width quote pairing scan of `collectPunctuationWarnings`: push
open-quote positions, pop on close quotes, flag unmatched close quotes and
leftover open quotes. -/
def quoteScanWarns (oqc cqc : Char) : Nat → List Nat → List Nat → LC → List Nat
  | _, stack, warns, [] => warns ++ stack.reverse
  | pos, stack, warns, c :: rest =>
    if c = oqc then quoteScanWarns oqc cqc (pos + 1) (pos :: stack) warns rest
    else if c = cqc then
      match stack with
      | _ :: s' => quoteScanWarns oqc cqc (pos + 1) s' warns rest
      | [] => quoteScanWarns oqc cqc (pos + 1) [] (warns ++ [pos]) rest
    else quoteScanWarns oqc cqc (pos + 1) stack warns rest

/-- JS `Set` deduplication over numbers, keeping first occurrences. -/
def dedupNatGo (seen : List Nat) : List Nat → List Nat
  | [] => []
  | x :: xs =>
    if x ∈ seen then dedupNatGo seen xs
    else x :: dedupNatGo (x :: seen) xs

/-- `Set` deduplication from an empty seen-set. -/
def dedupNat (xs : List Nat) : List Nat := dedupNatGo [] xs

/-- `HighlightManager.collectPunctuationWarnings`: the flagged positions as
a sorted deduplicated list (`Array.from(warningIndexes).sort((a, b) => a - b)`). -/
def collectPunctuationWarnings (cfg : PunctuationConfig) (text : LC) : List Nat :=
  if ! cfg.enabled then []
  else
    let base := (List.range text.length).filter (warnAt cfg text)
    let dq := if cfg.doubleQuote then quoteScanWarns '“' '”' 0 [] [] text else []
    let sq := if cfg.singleQuote then quoteScanWarns '‘' '’' 0 [] [] text else []
    List.insertionSort (· ≤ ·) (dedupNat (base ++ dq ++ sq))

/-- What a decoration range decorates: a keyword span or a flagged
punctuation character. -/
inductive DecoKind where
  | keyword (kw : LC) : DecoKind
  | punctuation : DecoKind
deriving DecidableEq

/-- One decoration range `{ from, to, decoration }` of `updateDecorations`. -/
structure DecoRange where
  fromPos : Nat
  toPos : Nat
  kind : DecoKind
deriving DecidableEq

/-- The final comparator of `decorationRanges.sort`: by `from`, ties by
`to`. -/
def decoLe (a b : DecoRange) : Prop :=
  a.fromPos < b.fromPos ∨ (a.fromPos = b.fromPos ∧ a.toPos ≤ b.toPos)

instance : DecidableRel decoLe := fun a b => by
  unfold decoLe
  exact instDecidableOr

instance : IsTotal DecoRange decoLe :=
  ⟨fun a b => by
    unfold decoLe
    rcases Nat.lt_trichotomy a.fromPos b.fromPos with h | h | h
    · exact Or.inl (Or.inl h)
    · rcases Nat.le_total a.toPos b.toPos with h2 | h2
      · exact Or.inl (Or.inr ⟨h, h2⟩)
      · exact Or.inr (Or.inr ⟨h.symm, h2⟩)
    · exact Or.inr (Or.inl h)⟩

instance : IsTrans DecoRange decoLe :=
  ⟨fun a b c h1 h2 => by
    unfold decoLe at *
    rcases h1 with h1 | ⟨h1a, h1b⟩ <;> rcases h2 with h2 | ⟨h2a, h2b⟩
    · exact Or.inl (Nat.lt_trans h1 h2)
    · exact Or.inl (h2a ▸ h1)
    · exact Or.inl (h1a ▸ h2)
    · exact Or.inr ⟨h1a.trans h2a, Nat.le_trans h1b h2b⟩⟩

/-- The decoration sequence one pass of `updateDecorations` hands to the
`RangeSetBuilder`: the (re-sorted) final keyword matches as keyword ranges,
the punctuation warnings as one-character ranges, merged and sorted by
`(from, to)`. -/
def computeDecorationRanges (cfg : PunctuationConfig) (mode : HighlightMode)
    (gm : List (LC × LC)) (keywords : List LC) (text : LC) : List DecoRange :=
  let ms := collectMatches text keywords
  let final := finalMatches mode gm ms
  let finalSorted := List.insertionSort kwLe final
  let kwRanges : List DecoRange :=
    finalSorted.map fun m => ⟨m.fromPos, m.toPos, DecoKind.keyword m.keyword⟩
  let punct : List DecoRange :=
    (collectPunctuationWarnings cfg text).map fun i => ⟨i, i + 1, DecoKind.punctuation⟩
  List.insertionSort decoLe (kwRanges ++ punct)

/-- C3: every decoration sequence produced by one decoration pass (keyword
ranges and punctuation ranges merged) is sorted ascending before insertion
into the range-set builder: adjacent ranges satisfy
`from_i ≤ from_{i+1}`, and on equal `from` also `to_i ≤ to_{i+1}`. -/
theorem decoration_ranges_sorted (cfg : PunctuationConfig) (mode : HighlightMode)
    (gm : List (LC × LC)) (keywords : List LC) (text : LC) (i : Nat)
    (h : i + 1 < (computeDecorationRanges cfg mode gm keywords text).length) :
    ((computeDecorationRanges cfg mode gm keywords text).getD i ⟨0, 0, DecoKind.punctuation⟩).fromPos
        ≤ ((computeDecorationRanges cfg mode gm keywords text).getD (i + 1)
              ⟨0, 0, DecoKind.punctuation⟩).fromPos ∧
      (((computeDecorationRanges cfg mode gm keywords text).getD i
            ⟨0, 0, DecoKind.punctuation⟩).fromPos =
          ((computeDecorationRanges cfg mode gm keywords text).getD (i + 1)
              ⟨0, 0, DecoKind.punctuation⟩).fromPos →
        ((computeDecorationRanges cfg mode gm keywords text).getD i
            ⟨0, 0, DecoKind.punctuation⟩).toPos ≤
          ((computeDecorationRanges cfg mode gm keywords text).getD (i + 1)
              ⟨0, 0, DecoKind.punctuation⟩).toPos) := by
  have hsorted : List.Sorted decoLe (computeDecorationRanges cfg mode gm keywords text) := by
    unfold computeDecorationRanges
    exact List.sorted_insertionSort decoLe _
  have hi : i < (computeDecorationRanges cfg mode gm keywords text).length := by omega
  have hrel : decoLe
      ((computeDecorationRanges cfg mode gm keywords text).get ⟨i, hi⟩)
      ((computeDecorationRanges cfg mode gm keywords text).get ⟨i + 1, h⟩) :=
    List.Sorted.rel_get_of_lt hsorted (by simp [Fin.lt_def])
  rw [List.getD_eq_getElem _ _ hi, List.getD_eq_getElem _ _ h]
  have hg1 : (computeDecorationRanges cfg mode gm keywords text)[i] =
      (computeDecorationRanges cfg mode gm keywords text).get ⟨i, hi⟩ := rfl
  have hg2 : (computeDecorationRanges cfg mode gm keywords text)[i + 1] =
      (computeDecorationRanges cfg mode gm keywords text).get ⟨i + 1, h⟩ := rfl
  rw [hg1, hg2]
  unfold decoLe at hrel
  rcases hrel with h1 | ⟨h2a, h2b⟩
  · exact ⟨Nat.le_of_lt h1, fun he => absurd (he ▸ h1) (Nat.lt_irrefl _)⟩
  · exact ⟨Nat.le_of_eq h2a, fun _ => h2b⟩

/-- Keep-first-per-group as a structural recursion: keep the head, drop all
later matches of its group.  Equal to the `firstByGroup` map fold. -/
def keepFirstRec (g : KwMatch → LC) : List KwMatch → List KwMatch
  | [] => []
  | m :: rest => m :: keepFirstRec g (rest.filter fun p => g p ≠ g m)
termination_by l => l.length
decreasing_by
  simp only [List.length_cons]
  have := List.length_filter_le (fun p => decide (g p ≠ g m)) rest
  omega

theorem keepFirst_foldl_eq (g : KwMatch → LC) (l : List KwMatch) :
    ∀ acc : List KwMatch,
      l.foldl (fun acc m => if acc.any (fun p => g p = g m) then acc else acc ++ [m]) acc =
        acc ++ keepFirstRec g (l.filter fun m => ! acc.any (fun p => g p = g m)) := by
  induction l with
  | nil => intro acc; simp [keepFirstRec]
  | cons m rest ih =>
    intro acc
    rw [List.foldl_cons]
    by_cases hc : acc.any (fun p => g p = g m) = true
    · rw [if_pos hc, ih acc, List.filter_cons]
      rw [hc]
      simp only [Bool.not_true]
      rw [if_neg (by simp)]
    · rw [if_neg hc, ih (acc ++ [m]), List.filter_cons]
      have hcf : acc.any (fun p => g p = g m) = false := by
        revert hc
        cases acc.any (fun p => g p = g m) <;> simp
      rw [hcf]
      simp only [Bool.not_false, if_pos]
      rw [keepFirstRec]
      have hfilters :
          rest.filter (fun p => ! (acc ++ [m]).any (fun q => g q = g p)) =
            (rest.filter (fun p => ! acc.any (fun q => g q = g p))).filter
              (fun p => g p ≠ g m) := by
        rw [List.filter_filter]
        apply List.filter_congr
        intro x _
        rw [List.any_append]
        by_cases h1 : g m = g x
        · have e1 : decide (g m = g x) = true := decide_eq_true h1
          have e2 : decide (g x ≠ g m) = false := decide_eq_false (fun h2 => h2 h1.symm)
          simp [e1, e2]
        · have e1 : decide (g m = g x) = false := decide_eq_false h1
          have e2 : decide (g x ≠ g m) = true := decide_eq_true (fun h2 => h1 h2.symm)
          simp [e1, e2]
      rw [hfilters]
      simp [List.append_assoc]

theorem keepFirstByGroup_eq_rec (gm : List (LC × LC)) (l : List KwMatch) :
    keepFirstByGroup gm l = keepFirstRec (fun m => groupOf gm m.keyword) l := by
  unfold keepFirstByGroup
  rw [keepFirst_foldl_eq (fun m => groupOf gm m.keyword) l []]
  simp only [List.nil_append, List.any_nil, Bool.not_false]
  rw [List.filter_true]

theorem keepFirstRec_subset {g : KwMatch → LC} {l : List KwMatch} {m : KwMatch}
    (h : m ∈ keepFirstRec g l) : m ∈ l := by
  induction l using keepFirstRec.induct g with
  | case1 => rw [keepFirstRec] at h; cases h
  | case2 hd rest ih =>
    rw [keepFirstRec] at h
    rcases List.mem_cons.1 h with h1 | h2
    · exact h1 ▸ List.mem_cons_self hd rest
    · exact List.mem_cons_of_mem hd (List.mem_of_mem_filter (ih h2))

theorem keepFirstRec_unique {g : KwMatch → LC} {l : List KwMatch} {m1 m2 : KwMatch}
    (h1 : m1 ∈ keepFirstRec g l) (h2 : m2 ∈ keepFirstRec g l) (hg : g m1 = g m2) :
    m1 = m2 := by
  induction l using keepFirstRec.induct g with
  | case1 => rw [keepFirstRec] at h1; cases h1
  | case2 hd rest ih =>
    rw [keepFirstRec] at h1 h2
    rcases List.mem_cons.1 h1 with ha | ha <;> rcases List.mem_cons.1 h2 with hb | hb
    · exact ha.trans hb.symm
    · exfalso
      have hf : decide (g m2 ≠ g hd) = true :=
        (List.mem_filter.1 (keepFirstRec_subset hb)).2
      rw [ha] at hg
      exact absurd hg.symm (of_decide_eq_true hf)
    · exfalso
      have hf : decide (g m1 ≠ g hd) = true :=
        (List.mem_filter.1 (keepFirstRec_subset ha)).2
      rw [hb] at hg
      exact absurd hg (of_decide_eq_true hf)
    · exact ih ha hb

theorem keepFirstRec_min {g : KwMatch → LC} {l : List KwMatch}
    (hs : List.Pairwise kwLe l) {m : KwMatch} (hm : m ∈ keepFirstRec g l) :
    ∀ m' ∈ l, g m' = g m → m.fromPos ≤ m'.fromPos := by
  induction l using keepFirstRec.induct g with
  | case1 => rw [keepFirstRec] at hm; cases hm
  | case2 hd rest ih =>
    rw [keepFirstRec] at hm
    rcases List.pairwise_cons.1 hs with ⟨hhd, hrest⟩
    intro m' hm' hg
    rcases List.mem_cons.1 hm with h1 | h1
    · subst h1
      rcases List.mem_cons.1 hm' with h2 | h2
      · subst h2; exact Nat.le_refl _
      · exact hhd m' h2
    · have hgm : g m ≠ g hd := of_decide_eq_true
        ((List.mem_filter.1 (keepFirstRec_subset h1)).2)
      rcases List.mem_cons.1 hm' with h2 | h2
      · exfalso; exact hgm (by rw [← hg, h2])
      · have hm'f : m' ∈ rest.filter (fun p => g p ≠ g hd) :=
          List.mem_filter.2 ⟨h2, decide_eq_true (fun hh => hgm (by rw [← hg, hh]))⟩
        exact ih (hrest.filter _) h1 m' hm'f hg

theorem keepFirstRec_complete {g : KwMatch → LC} {l : List KwMatch} {m' : KwMatch}
    (h : m' ∈ l) : ∃ m ∈ keepFirstRec g l, g m = g m' := by
  induction l using keepFirstRec.induct g with
  | case1 => cases h
  | case2 hd rest ih =>
    rw [keepFirstRec]
    by_cases hg : g m' = g hd
    · exact ⟨hd, List.mem_cons_self _ _, hg.symm⟩
    · rcases List.mem_cons.1 h with h1 | h1
      · exact absurd (h1 ▸ rfl) hg
      · rcases ih (List.mem_filter.2 ⟨h1, decide_eq_true fun hh => hg hh⟩) with ⟨m, hm, hgm⟩
        exact ⟨m, List.mem_cons_of_mem hd hm, hgm⟩

theorem scanKw_sound (kw : LC) : ∀ (rem : LC) (pos : Nat), ∀ i ∈ scanKw kw rem pos,
    ∃ k, i = pos + k ∧ kw.isPrefixOf (rem.drop k) = true := by
  intro rem pos
  induction rem, pos using scanKw.induct kw with
  | case1 pos =>
    intro i hi
    rw [scanKw] at hi
    cases hi
  | case2 c rest pos h ih =>
    intro i hi
    rw [scanKw, if_pos h] at hi
    rcases List.mem_cons.1 hi with h1 | h1
    · refine ⟨0, by omega, ?_⟩
      rw [List.drop_zero]
      exact (Bool.and_eq_true_iff.1 h).1
    · rcases ih i h1 with ⟨k', hk', hp'⟩
      refine ⟨kw.length + k', by omega, ?_⟩
      rw [List.drop_drop] at hp'
      exact hp'
  | case3 c rest pos h ih =>
    intro i hi
    rw [scanKw, if_neg h] at hi
    rcases ih i hi with ⟨k', hk', hp'⟩
    exact ⟨k' + 1, by omega, hp'⟩

theorem scanKw_min (kw : LC) (hkw : kw ≠ []) : ∀ (rem : LC) (pos : Nat), ∀ j,
    kw.isPrefixOf (rem.drop j) = true → ∃ i ∈ scanKw kw rem pos, i ≤ pos + j := by
  intro rem pos
  induction rem, pos using scanKw.induct kw with
  | case1 pos =>
    intro j hp
    rw [List.drop_nil] at hp
    rcases isPrefixOf_iff_exists.1 hp with ⟨t, ht⟩
    exact absurd (List.append_eq_nil.1 ht.symm).1 hkw
  | case2 c rest pos h ih =>
    intro j hp
    rw [scanKw, if_pos h]
    exact ⟨pos, List.mem_cons_self _ _, by omega⟩
  | case3 c rest pos h ih =>
    intro j hp
    rw [scanKw, if_neg h]
    have hne : kw.isEmpty = false := by
      cases kw with
      | nil => exact absurd rfl hkw
      | cons a as => rfl
    have hnp : kw.isPrefixOf (c :: rest) = false := by
      by_cases hb : kw.isPrefixOf (c :: rest) = true
      · exfalso; exact h (by rw [hb, hne]; rfl)
      · revert hb; cases kw.isPrefixOf (c :: rest) <;> simp
    cases j with
    | zero =>
      rw [List.drop_zero] at hp
      rw [hp] at hnp
      cases hnp
    | succ j' =>
      have hp' : kw.isPrefixOf (rest.drop j') = true := hp
      rcases ih j' hp' with ⟨i, hmem, hle⟩
      exact ⟨i, hmem, by omega⟩

theorem mem_collectMatches {text : LC} {keywords : List LC} {m : KwMatch} :
    m ∈ collectMatches text keywords ↔
      ∃ kw ∈ keywords, ∃ i ∈ scanKw kw text 0, m = ⟨i, i + kw.length, kw⟩ := by
  unfold collectMatches
  rw [List.mem_flatMap]
  constructor
  · rintro ⟨kw, hkw, hm⟩
    rcases List.mem_map.1 hm with ⟨i, hi, rfl⟩
    exact ⟨kw, hkw, i, hi, rfl⟩
  · rintro ⟨kw, hkw, i, hi, rfl⟩
    exact ⟨kw, hkw, List.mem_map.2 ⟨i, hi, rfl⟩⟩

/-- C1: in `"first"` mode the decoration computation keeps, per groupId,
exactly one match — an actual occurrence whose start position is minimal
among all occurrences of every keyword of that group (primary title and
aliases alike) — and a keyword absent from the keyword-to-group mapping gets
the synthetic singleton group `kw::<keyword>`, distinct for distinct unknown
keywords. -/
theorem first_mode_highlight_spec (text : LC) (keywords : List LC) (gm : List (LC × LC)) :
    (∀ m ∈ firstModeMatches gm (collectMatches text keywords),
      m ∈ collectMatches text keywords ∧
      m.keyword.isPrefixOf (text.drop m.fromPos) = true ∧
      m.toPos = m.fromPos + m.keyword.length ∧
      ∀ kw j, kw ∈ keywords → kw ≠ [] →
        groupOf gm kw = groupOf gm m.keyword →
        kw.isPrefixOf (text.drop j) = true → m.fromPos ≤ j) ∧
    (∀ m1 m2, m1 ∈ firstModeMatches gm (collectMatches text keywords) →
      m2 ∈ firstModeMatches gm (collectMatches text keywords) →
      groupOf gm m1.keyword = groupOf gm m2.keyword → m1 = m2) ∧
    (∀ m ∈ collectMatches text keywords,
      ∃ m' ∈ firstModeMatches gm (collectMatches text keywords),
        groupOf gm m'.keyword = groupOf gm m.keyword) ∧
    (∀ k1 k2 : LC, gm.lookup k1 = none → gm.lookup k2 = none →
      groupOf gm k1 = groupOf gm k2 → k1 = k2) := by
  have heq : firstModeMatches gm (collectMatches text keywords) =
      keepFirstRec (fun m => groupOf gm m.keyword)
        (List.insertionSort kwLe (collectMatches text keywords)) := by
    unfold firstModeMatches
    exact keepFirstByGroup_eq_rec gm _
  have hperm := List.perm_insertionSort kwLe (collectMatches text keywords)
  have hsorted : List.Pairwise kwLe (List.insertionSort kwLe (collectMatches text keywords)) :=
    List.sorted_insertionSort kwLe (collectMatches text keywords)
  refine ⟨?_, ?_, ?_, ?_⟩
  · intro m hm
    rw [heq] at hm
    have hmS := keepFirstRec_subset hm
    have hmM := hperm.mem_iff.1 hmS
    rcases mem_collectMatches.1 hmM with ⟨kw, hkw, i, hi, rfl⟩
    rcases scanKw_sound kw text 0 i hi with ⟨k, hik, hpk⟩
    have hk0 : i = k := by omega
    refine ⟨hmM, by rw [hk0]; exact hpk, rfl, ?_⟩
    intro kw' j hkw' hkwne hgrp hocc
    rcases scanKw_min kw' hkwne text 0 j hocc with ⟨i', hi', hile⟩
    have hm'M : (⟨i', i' + kw'.length, kw'⟩ : KwMatch) ∈ collectMatches text keywords :=
      mem_collectMatches.2 ⟨kw', hkw', i', hi', rfl⟩
    have hm'S := hperm.mem_iff.2 hm'M
    have hfin : i ≤ i' :=
      keepFirstRec_min hsorted hm (⟨i', i' + kw'.length, kw'⟩ : KwMatch) hm'S hgrp
    show i ≤ j
    omega
  · intro m1 m2 hm1 hm2 hgrp
    rw [heq] at hm1 hm2
    exact keepFirstRec_unique hm1 hm2 hgrp
  · intro m hm
    have hmS := hperm.mem_iff.2 hm
    rcases keepFirstRec_complete hmS with ⟨m', hm', hgrp⟩
    rw [← heq] at hm'
    exact ⟨m', hm', hgrp⟩
  · intro k1 k2 h1 h2 hgrp
    unfold groupOf at hgrp
    rw [h1, h2] at hgrp
    simp only [Option.getD_none] at hgrp
    exact List.append_cancel_left hgrp

/-- A configuration with only the comma rule enabled, used as the concrete
instance of the decoration-ordering theorem. -/
def punctCfgComma : PunctuationConfig :=
  ⟨true, true, false, false, false, false, false, false, false⟩

theorem decoration_ranges_sorted_witness :
    ((computeDecorationRanges punctCfgComma HighlightMode.all [] []
        ((",,").toList)).getD 0 ⟨0, 0, DecoKind.punctuation⟩).fromPos ≤
      ((computeDecorationRanges punctCfgComma HighlightMode.all [] []
          ((",,").toList)).getD (0 + 1) ⟨0, 0, DecoKind.punctuation⟩).fromPos ∧
    (((computeDecorationRanges punctCfgComma HighlightMode.all [] []
          ((",,").toList)).getD 0 ⟨0, 0, DecoKind.punctuation⟩).fromPos =
        ((computeDecorationRanges punctCfgComma HighlightMode.all [] []
            ((",,").toList)).getD (0 + 1) ⟨0, 0, DecoKind.punctuation⟩).fromPos →
      ((computeDecorationRanges punctCfgComma HighlightMode.all [] []
          ((",,").toList)).getD 0 ⟨0, 0, DecoKind.punctuation⟩).toPos ≤
        ((computeDecorationRanges punctCfgComma HighlightMode.all [] []
            ((",,").toList)).getD (0 + 1) ⟨0, 0, DecoKind.punctuation⟩).toPos) :=
  decoration_ranges_sorted punctCfgComma HighlightMode.all [] [] ((",,").toList) 0 (by decide)

/-- `trimmed.startsWith("# ") && !trimmed.startsWith("## ")` on an already
trimmed line. -/
def isH1L (t : LC) : Bool :=
  ("# ").toList.isPrefixOf t && ! ("## ").toList.isPrefixOf t

/-- `trimmed.startsWith("## ") && !trimmed.startsWith("### ")` on an already
trimmed line. -/
def isH2L (t : LC) : Bool :=
  ("## ").toList.isPrefixOf t && ! ("### ").toList.isPrefixOf t

/-- The vault, modelled as an association list from file path to the file's
lines (`content.split("\n")`). -/
abbrev FS := List (LC × Lines)

/-- `vault.getAbstractFileByPath` + `vault.read`, as lines. -/
def fsRead (fs : FS) (p : LC) : Option Lines := fs.lookup p

/-- `vault.modify` of an existing file: replace its lines, no-op when the
path is absent. -/
def fsWrite (fs : FS) (p : LC) (content : Lines) : FS :=
  fs.map fun e => if e.1 = p then (p, content) else e

/-- The loop state of `reorderH1InFile`. -/
structure RState where
  h1Blocks : List (LC × Lines)
  currentH1 : Option LC
  currentBlock : Lines
  beforeFirstH1 : Lines
  inFirstH1 : Bool
deriving DecidableEq

/-- One iteration of the `reorderH1InFile` parse loop: on an H1 heading,
flush the open block (into the map, or into `beforeFirstH1` for the leading
preamble) and start a new block; otherwise extend the open block. -/
def reorderStep (st : RState) (line : LC) : RState :=
  let trimmed := trimL line
  if isH1L trimmed then
    let st' :=
      match st.currentH1 with
      | some h => { st with h1Blocks := assocSet st.h1Blocks h st.currentBlock }
      | none =>
        if st.inFirstH1 then
          { st with beforeFirstH1 := st.currentBlock, inFirstH1 := false }
        else st
    { st' with currentH1 := some (trimL (trimmed.drop 2)), currentBlock := [line] }
  else { st with currentBlock := st.currentBlock ++ [line] }

/-- The final flush of `reorderH1InFile`: save the last open H1 block. -/
def finalBlocksOf (st : RState) : List (LC × Lines) :=
  match st.currentH1 with
  | some h => assocSet st.h1Blocks h st.currentBlock
  | none => st.h1Blocks

/-- `OrderManager.reorderH1InFile` on the file's lines: parse the H1 blocks
(`Map.set`, later duplicate titles overwriting earlier ones), then emit the
preserved preamble followed by the requested blocks in `h1Order` order. -/
def reorderH1Lines (lines : Lines) (h1Order : List LC) : Lines :=
  let st := lines.foldl reorderStep ⟨[], none, [], [], true⟩
  let blocks := finalBlocksOf st
  st.beforeFirstH1 ++ h1Order.flatMap fun t => (blocks.lookup t).getD []

/-- `OrderManager.reorderH1InFile` on the vault. -/
def reorderH1InFile (fs : FS) (filePath : LC) (h1Order : List LC) : FS :=
  match fsRead fs filePath with
  | none => fs
  | some lines => fsWrite fs filePath (reorderH1Lines lines h1Order)

/-- Spec-side grouping of a document into H1 blocks, as the claim reads:
each H1 heading line opens a block holding the heading line and all lines up
to the next H1 heading; lines before the first H1 belong to no block. -/
def h1BlocksSpecGo : Option (LC × Lines) → Lines → List (LC × Lines)
  | cur, [] =>
    (match cur with
     | some tb => [tb]
     | none => [])
  | cur, line :: rest =>
    if isH1L (trimL line) then
      (match cur with
       | some tb => [tb]
       | none => []) ++
        h1BlocksSpecGo (some (trimL ((trimL line).drop 2), [line])) rest
    else
      match cur with
      | some tb => h1BlocksSpecGo (some (tb.1, tb.2 ++ [line])) rest
      | none => h1BlocksSpecGo none rest

/-- The H1 blocks of a document, titles paired with their full line blocks,
in document order. -/
def h1BlocksSpec (lines : Lines) : List (LC × Lines) := h1BlocksSpecGo none lines

/-- The preamble: lines before the first H1 heading. -/
def h1Preamble (lines : Lines) : Lines := lines.takeWhile fun l => ! isH1L (trimL l)

/-- Spec-side reading of C10: the rewritten file is the preserved preamble
followed by the blocks of the titles in `h1Order`, in that order, a
duplicated title contributing its last block and an absent title nothing. -/
def reorderSpecLines (lines : Lines) (h1Order : List LC) : Lines :=
  h1Preamble lines ++
    h1Order.flatMap fun t => ((h1BlocksSpec lines).reverse.lookup t).getD []

theorem lookup_map_replace_ne {β : Type} (m : List (LC × β)) (k t : LC) (v : β)
    (h : t ≠ k) :
    (m.map fun e => if e.1 = k then (k, v) else e).lookup t = m.lookup t := by
  induction m with
  | nil => rfl
  | cons e es ih =>
    rcases e with ⟨k', v'⟩
    simp only [List.map_cons]
    by_cases he : k' = k
    · rw [if_pos he, lookup_cons_eq, if_neg h, lookup_cons_eq, if_neg (he ▸ h), ih]
    · rw [if_neg he]
      rw [lookup_cons_eq, lookup_cons_eq]
      by_cases ht : t = k'
      · rw [if_pos ht, if_pos ht]
      · rw [if_neg ht, if_neg ht, ih]

theorem lookup_map_replace_self {β : Type} (m : List (LC × β)) (k : LC) (v : β)
    (h : (m.lookup k).isSome) :
    (m.map fun e => if e.1 = k then (k, v) else e).lookup k = some v := by
  induction m with
  | nil => simp [List.lookup] at h
  | cons e es ih =>
    rcases e with ⟨k', v'⟩
    simp only [List.map_cons]
    by_cases he : k' = k
    · rw [if_pos he, lookup_cons_eq, if_pos rfl]
    · rw [if_neg he]
      rw [lookup_cons_eq, if_neg (fun hk => he hk.symm)]
      apply ih
      rw [lookup_cons_eq, if_neg (fun hk => he hk.symm)] at h
      exact h

theorem assocSet_lookup {β : Type} (m : List (LC × β)) (k t : LC) (v : β) :
    (assocSet m k v).lookup t = if t = k then some v else m.lookup t := by
  unfold assocSet
  by_cases h : (m.lookup k).isSome
  · rw [if_pos h]
    by_cases ht : t = k
    · subst ht
      rw [if_pos rfl, lookup_map_replace_self m t v h]
    · rw [if_neg ht, lookup_map_replace_ne m k t v ht]
  · rw [if_neg h, List.lookup_append]
    have hnone : m.lookup k = none := Option.not_isSome_iff_eq_none.1 h
    by_cases ht : t = k
    · subst ht
      rw [hnone, if_pos rfl, lookup_cons_eq, if_pos rfl]
      rfl
    · rw [if_neg ht, lookup_cons_eq, if_neg ht, List.lookup_nil, Option.or_none]

theorem foldl_assocSet_lookup {β : Type} (L : List (LC × β)) :
    ∀ (m : List (LC × β)) (t : LC),
      (L.foldl (fun acc tb => assocSet acc tb.1 tb.2) m).lookup t =
        (L.reverse.lookup t).or (m.lookup t) := by
  induction L with
  | nil =>
    intro m t
    simp
  | cons ab L ih =>
    intro m t
    rcases ab with ⟨a, b⟩
    rw [List.foldl_cons, ih, List.reverse_cons, List.lookup_append, Option.or_assoc]
    congr 1
    rw [assocSet_lookup, lookup_cons_eq, List.lookup_nil]
    by_cases ht : t = a
    · rw [if_pos ht, if_pos ht]
      rfl
    · rw [if_neg ht, if_neg ht]
      rfl

theorem reorderStep_nonH1 {st : RState} {line : LC} (h : isH1L (trimL line) = false) :
    reorderStep st line = { st with currentBlock := st.currentBlock ++ [line] } := by
  unfold reorderStep
  rw [if_neg (by rw [h]; exact Bool.false_ne_true)]

theorem reorder_fold_nonH1 : ∀ (seg : Lines) (st : RState),
    (∀ l ∈ seg, isH1L (trimL l) = false) →
    seg.foldl reorderStep st = { st with currentBlock := st.currentBlock ++ seg } := by
  intro seg
  induction seg with
  | nil => intro st _; simp
  | cons line rest ih =>
    intro st hseg
    rw [List.foldl_cons, reorderStep_nonH1 (hseg line (List.mem_cons_self _ _)),
      ih _ (fun l hl => hseg l (List.mem_cons_of_mem line hl))]
    simp

theorem reorder_fold_blocks : ∀ (rest : Lines) (bl : List (LC × Lines)) (h : LC)
    (cb bf : Lines) (fl : Bool),
    finalBlocksOf (rest.foldl reorderStep ⟨bl, some h, cb, bf, fl⟩) =
      (h1BlocksSpecGo (some (h, cb)) rest).foldl (fun acc tb => assocSet acc tb.1 tb.2) bl := by
  intro rest
  induction rest with
  | nil =>
    intro bl h cb bf fl
    rfl
  | cons line rest ih =>
    intro bl h cb bf fl
    rw [List.foldl_cons, h1BlocksSpecGo]
    by_cases hl : isH1L (trimL line) = true
    · have hstep : reorderStep ⟨bl, some h, cb, bf, fl⟩ line =
          ⟨assocSet bl h cb, some (trimL ((trimL line).drop 2)), [line], bf, fl⟩ := by
        unfold reorderStep
        rw [if_pos hl]
      rw [hstep, if_pos hl, ih]
      rfl
    · have hlf : isH1L (trimL line) = false := by
        revert hl; cases isH1L (trimL line) <;> simp
      rw [reorderStep_nonH1 hlf, if_neg hl, ih]

theorem reorder_fold_bf : ∀ (rest : Lines) (bl : List (LC × Lines)) (h : LC)
    (cb bf : Lines) (fl : Bool),
    (rest.foldl reorderStep ⟨bl, some h, cb, bf, fl⟩).beforeFirstH1 = bf := by
  intro rest
  induction rest with
  | nil => intro bl h cb bf fl; rfl
  | cons line rest ih =>
    intro bl h cb bf fl
    rw [List.foldl_cons]
    by_cases hl : isH1L (trimL line) = true
    · have hstep : reorderStep ⟨bl, some h, cb, bf, fl⟩ line =
          ⟨assocSet bl h cb, some (trimL ((trimL line).drop 2)), [line], bf, fl⟩ := by
        unfold reorderStep
        rw [if_pos hl]
      rw [hstep, ih]
    · have hlf : isH1L (trimL line) = false := by
        revert hl; cases isH1L (trimL line) <;> simp
      rw [reorderStep_nonH1 hlf, ih]

theorem h1BlocksSpecGo_skip : ∀ (pre : Lines),
    (∀ l ∈ pre, isH1L (trimL l) = false) → ∀ (rest : Lines),
    h1BlocksSpecGo none (pre ++ rest) = h1BlocksSpecGo none rest := by
  intro pre
  induction pre with
  | nil => intro _ rest; rfl
  | cons line pre ih =>
    intro hpre rest
    rw [List.cons_append, h1BlocksSpecGo,
      if_neg (by rw [hpre line (List.mem_cons_self _ _)]; exact Bool.false_ne_true)]
    exact ih (fun l hl => hpre l (List.mem_cons_of_mem line hl)) rest

theorem dropWhile_head_not {α : Type} (p : α → Bool) (l : List α) :
    ∀ x xs, l.dropWhile p = x :: xs → p x = false := by
  induction l with
  | nil => intro x xs h; cases h
  | cons a as ih =>
    intro x xs h
    rw [List.dropWhile_cons] at h
    by_cases ha : p a = true
    · rw [if_pos ha] at h
      exact ih x xs h
    · rw [if_neg ha] at h
      rcases List.cons_eq_cons.1 h with ⟨heq, -⟩
      rw [← heq]
      revert ha; cases p a <;> simp

/-- C10 (amended): for a file containing at least one H1 heading,
`reorderH1InFile` rewrites the file to the preserved preamble (lines before
the first H1) followed only by the H1 blocks whose trimmed titles appear in
`h1Order`, in that order; a title absent from the list loses its block, and
of two blocks sharing a trimmed title only the later one survives.  (A file
with no H1 heading at all is instead rewritten to the empty text: its lines
are accumulated into the never-flushed first block.) -/
theorem reorderH1Lines_eq_spec (lines : Lines) (h1Order : List LC)
    (hh : lines.any (fun l => isH1L (trimL l)) = true) :
    reorderH1Lines lines h1Order = reorderSpecLines lines h1Order := by
  have hsplit := List.takeWhile_append_dropWhile (fun l => ! isH1L (trimL l)) lines
  rcases hrest : lines.dropWhile (fun l => ! isH1L (trimL l)) with _ | ⟨hl, rest3⟩
  · exfalso
    rcases List.any_eq_true.1 hh with ⟨l, hlmem, hlH1⟩
    have := List.dropWhile_eq_nil_iff.1 hrest l hlmem
    rw [hlH1] at this
    cases this
  · have hH1hl : isH1L (trimL hl) = true := by
      have h2 := dropWhile_head_not (fun l => ! isH1L (trimL l)) lines hl rest3 hrest
      simp only at h2
      cases hb : isH1L (trimL hl)
      · rw [hb] at h2
        exact absurd h2 (by decide)
      · rfl
    have hpre : ∀ l ∈ lines.takeWhile (fun l => ! isH1L (trimL l)),
        isH1L (trimL l) = false := by
      intro l hlmem
      have h2 := List.mem_takeWhile_imp hlmem
      simp only at h2
      cases hb : isH1L (trimL l)
      · rfl
      · rw [hb] at h2
        exact absurd h2 (by decide)
    unfold reorderH1Lines reorderSpecLines h1Preamble h1BlocksSpec
    simp only
    have hfold : lines.foldl reorderStep ⟨[], none, [], [], true⟩ =
        (hl :: rest3).foldl reorderStep
          ⟨[], none, lines.takeWhile (fun l => ! isH1L (trimL l)), [], true⟩ := by
      conv_lhs => rw [← hsplit]
      rw [List.foldl_append, hrest,
        reorder_fold_nonH1 _ _ hpre]
      rfl
    have hstep1 : reorderStep
        ⟨[], none, lines.takeWhile (fun l => ! isH1L (trimL l)), [], true⟩ hl =
        ⟨[], some (trimL ((trimL hl).drop 2)), [hl],
          lines.takeWhile (fun l => ! isH1L (trimL l)), false⟩ := by
      unfold reorderStep
      rw [if_pos hH1hl]
      rfl
    have hspecgo : h1BlocksSpecGo none lines =
        h1BlocksSpecGo (some (trimL ((trimL hl).drop 2), [hl])) rest3 := by
      conv_lhs => rw [← hsplit]
      rw [hrest, h1BlocksSpecGo_skip _ hpre, h1BlocksSpecGo, if_pos hH1hl,
        List.nil_append]
    rw [hfold, List.foldl_cons, hstep1]
    rw [reorder_fold_bf, reorder_fold_blocks, hspecgo]
    congr 1
    apply flatMap_congr_of_mem
    intro t _
    rw [foldl_assocSet_lookup, List.lookup_nil, Option.or_none]

/-- C10 counterexample: for a file with no H1 heading (a single content
line) the claim's "preserved preamble" reading would keep the line, but the
code rewrites the file to empty — the preamble is only saved when a first H1
is encountered. -/
theorem reorderH1Lines_counterexample :
    reorderH1Lines [("hello").toList] [] = [] ∧
      reorderSpecLines [("hello").toList] [] = [("hello").toList] ∧
      reorderH1Lines [("hello").toList] [] ≠ reorderSpecLines [("hello").toList] [] := by
  refine ⟨rfl, rfl, ?_⟩
  intro h
  rw [show reorderH1Lines [("hello").toList] [] = [] from rfl] at h
  rw [show reorderSpecLines [("hello").toList] [] = [("hello").toList] from rfl] at h
  cases h

theorem reorderH1Lines_eq_spec_witness :
    ([("# A").toList, ("x").toList].any (fun l => isH1L (trimL l)) = true) ∧
      reorderH1Lines [("# A").toList, ("x").toList] [("A").toList] =
        reorderSpecLines [("# A").toList, ("x").toList] [("A").toList] :=
  ⟨by decide, reorderH1Lines_eq_spec [("# A").toList, ("x").toList] [("A").toList] (by decide)⟩

/-- The H2-block extraction loop of `moveH2BetweenH1s` (which does not reset
`inTargetH2` on re-entering a matching H1). -/
def extractH2BlockGo (sourceH1Text h2Text : LC) (inH1 inH2 : Bool) (block : Lines) :
    Lines → Lines
  | [] => block
  | line :: rest =>
    let trimmed := trimL line
    if isH1L trimmed then
      let inH1' := trimL (trimmed.drop 2) = sourceH1Text
      if ! inH1' && inH2 then block
      else extractH2BlockGo sourceH1Text h2Text inH1' inH2 block rest
    else if inH1 && isH2L trimmed then
      if trimL (trimmed.drop 3) = h2Text then
        extractH2BlockGo sourceH1Text h2Text inH1 true (block ++ [line]) rest
      else if inH2 then block
      else extractH2BlockGo sourceH1Text h2Text inH1 inH2 block rest
    else if inH2 then extractH2BlockGo sourceH1Text h2Text inH1 inH2 (block ++ [line]) rest
    else extractH2BlockGo sourceH1Text h2Text inH1 inH2 block rest

/-- The H2-block extraction loop of `moveH2ToEndOfH1` (which does reset
`inTargetH2` when entering a non-matching H1). -/
def extractH2BlockEndGo (sourceH1Text h2Text : LC) (inH1 inH2 : Bool) (block : Lines) :
    Lines → Lines
  | [] => block
  | line :: rest =>
    let trimmed := trimL line
    if isH1L trimmed then
      let inH1' := trimL (trimmed.drop 2) = sourceH1Text
      if ! inH1' && inH2 then block
      else
        extractH2BlockEndGo sourceH1Text h2Text inH1' (if ! inH1' then false else inH2)
          block rest
    else if inH1 && isH2L trimmed then
      if trimL (trimmed.drop 3) = h2Text then
        extractH2BlockEndGo sourceH1Text h2Text inH1 true (block ++ [line]) rest
      else if inH2 then block
      else extractH2BlockEndGo sourceH1Text h2Text inH1 inH2 block rest
    else if inH2 then extractH2BlockEndGo sourceH1Text h2Text inH1 inH2 (block ++ [line]) rest
    else extractH2BlockEndGo sourceH1Text h2Text inH1 inH2 block rest

/-- The deletion loop of `OrderManager.removeH2FromFile`: keep every line
except the target H2 heading and its block. -/
def removeH2Lines (h1Text h2Text : LC) (lines : Lines) : Lines :=
  (lines.foldl
    (fun st line =>
      let trimmed := trimL line
      if isH1L trimmed then
        (decide (trimL (trimmed.drop 2) = h1Text), false, st.2.2 ++ [line])
      else if st.1 && isH2L trimmed then
        if trimL (trimmed.drop 3) = h2Text then (st.1, true, st.2.2)
        else (st.1, false, st.2.2 ++ [line])
      else if ! st.2.1 then (st.1, st.2.1, st.2.2 ++ [line])
      else st)
    ((false, false, []) : Bool × Bool × Lines)).2.2

/-- `OrderManager.removeH2FromFile` on the vault. -/
def removeH2FromFile (fs : FS) (filePath h1Text h2Text : LC) : FS :=
  match fsRead fs filePath with
  | none => fs
  | some lines => fsWrite fs filePath (removeH2Lines h1Text h2Text lines)

/-- The inner scan of `insertH2ToFile` for `insertBefore = false`: the index
of the next H2 or H1 heading after the target H2 (skipping falsy empty
lines), or the prior `insertIndex` (the file length) when none follows. -/
def nextBoundaryIdx (total : Nat) : Nat → Lines → Nat
  | _, [] => total
  | pos, line :: rest =>
    if line = [] then nextBoundaryIdx total (pos + 1) rest
    else
      let t := trimL line
      if isH2L t then pos
      else if isH1L t then pos
      else nextBoundaryIdx total (pos + 1) rest

/-- The `insertIndex` search loop of `insertH2ToFile`: before the target H2
when `insertBefore`, after its block otherwise, at the end of the target H1
when the target H2 is not found, and at the end of the file when even the
target H1 is not found. -/
def insertIdxGo (h1Text targetH2Text : LC) (insertBefore : Bool) (total : Nat) :
    Nat → Bool → Lines → Nat
  | _, _, [] => total
  | pos, inH1, line :: rest =>
    if line = [] then insertIdxGo h1Text targetH2Text insertBefore total (pos + 1) inH1 rest
    else
      let t := trimL line
      if isH1L t then
        if trimL (t.drop 2) = h1Text then
          insertIdxGo h1Text targetH2Text insertBefore total (pos + 1) true rest
        else if inH1 then pos
        else insertIdxGo h1Text targetH2Text insertBefore total (pos + 1) inH1 rest
      else if inH1 && isH2L t then
        if trimL (t.drop 3) = targetH2Text then
          if insertBefore then pos else nextBoundaryIdx total (pos + 1) rest
        else insertIdxGo h1Text targetH2Text insertBefore total (pos + 1) inH1 rest
      else insertIdxGo h1Text targetH2Text insertBefore total (pos + 1) inH1 rest

/-- `OrderManager.insertH2ToFile` on the vault: splice the block at the
computed index; no mutation when the target file does not exist. -/
def insertH2ToFile (fs : FS) (filePath h1Text targetH2Text : LC) (h2Block : Lines)
    (insertBefore : Bool) : FS :=
  match fsRead fs filePath with
  | none => fs
  | some lines =>
    let insertIndex := insertIdxGo h1Text targetH2Text insertBefore lines.length 0 false lines
    fsWrite fs filePath (lines.take insertIndex ++ h2Block ++ lines.drop insertIndex)

/-- `OrderManager.moveH2BetweenH1s`: extract the H2 block from the source
file, then delete it there and insert it at the target position. -/
def moveH2BetweenH1s (fs : FS) (sourceFilePath sourceH1Text targetFilePath targetH1Text
    h2Text targetH2Text : LC) (insertBefore : Bool) : FS :=
  match fsRead fs sourceFilePath with
  | none => fs
  | some sourceLines =>
    let h2Block := extractH2BlockGo sourceH1Text h2Text false false [] sourceLines
    if h2Block = [] then fs
    else
      let fs1 := removeH2FromFile fs sourceFilePath sourceH1Text h2Text
      insertH2ToFile fs1 targetFilePath targetH1Text targetH2Text h2Block insertBefore

/-- The end-of-target-H1 index search of `moveH2ToEndOfH1` (the next H1
after the target H1, or the file length). -/
def endOfH1IdxGo (targetH1Text : LC) (total : Nat) : Nat → Bool → Lines → Nat
  | _, _, [] => total
  | pos, inT, line :: rest =>
    if line = [] then endOfH1IdxGo targetH1Text total (pos + 1) inT rest
    else
      let t := trimL line
      if isH1L t then
        if trimL (t.drop 2) = targetH1Text then endOfH1IdxGo targetH1Text total (pos + 1) true rest
        else if inT then pos
        else endOfH1IdxGo targetH1Text total (pos + 1) inT rest
      else endOfH1IdxGo targetH1Text total (pos + 1) inT rest

/-- `OrderManager.moveH2ToEndOfH1`: extract the H2 block, no-op when it is
empty or when source and target coincide, else delete it from the source and
splice it at the end of the target H1. -/
def moveH2ToEndOfH1 (fs : FS) (sourceFilePath sourceH1Text targetFilePath targetH1Text
    h2Text : LC) : FS :=
  match fsRead fs sourceFilePath with
  | none => fs
  | some sourceLines =>
    let h2Block := extractH2BlockEndGo sourceH1Text h2Text false false [] sourceLines
    if h2Block = [] then fs
    else if sourceFilePath = targetFilePath ∧ sourceH1Text = targetH1Text then fs
    else
      let fs1 := removeH2FromFile fs sourceFilePath sourceH1Text h2Text
      match fsRead fs1 targetFilePath with
      | none => fs1
      | some targetLines =>
        let insertIndex := endOfH1IdxGo targetH1Text targetLines.length 0 false targetLines
        fsWrite fs1 targetFilePath
          (targetLines.take insertIndex ++ h2Block ++ targetLines.drop insertIndex)

/-- The H1-block extraction loop of `moveH1ToEndOfFile`. -/
def extractH1BlockGo (h1Text : LC) (inT : Bool) (block : Lines) : Lines → Lines
  | [] => block
  | line :: rest =>
    let t := trimL line
    if isH1L t then
      if trimL (t.drop 2) = h1Text then extractH1BlockGo h1Text true (block ++ [line]) rest
      else if inT then block
      else extractH1BlockGo h1Text inT block rest
    else if inT then extractH1BlockGo h1Text inT (block ++ [line]) rest
    else extractH1BlockGo h1Text inT block rest

/-- The H1-block deletion loop of `moveH1ToEndOfFile`. -/
def removeH1Lines (h1Text : LC) (lines : Lines) : Lines :=
  (lines.foldl
    (fun st line =>
      let t := trimL line
      if isH1L t then
        if trimL (t.drop 2) = h1Text then (true, st.2)
        else (false, st.2 ++ [line])
      else if ! st.1 then (st.1, st.2 ++ [line])
      else st)
    ((false, []) : Bool × Lines)).2

/-- `OrderManager.moveH1ToEndOfFile`: no-op for identical paths, else
extract the H1 block, delete it from the source and append it to the target
file. -/
def moveH1ToEndOfFile (fs : FS) (sourceFilePath targetFilePath h1Text : LC) : FS :=
  if sourceFilePath = targetFilePath then fs
  else
    match fsRead fs sourceFilePath with
    | none => fs
    | some sourceLines =>
      let h1Block := extractH1BlockGo h1Text false [] sourceLines
      if h1Block = [] then fs
      else
        let fs1 := fsWrite fs sourceFilePath (removeH1Lines h1Text sourceLines)
        match fsRead fs1 targetFilePath with
        | none => fs1
        | some targetLines => fsWrite fs1 targetFilePath (targetLines ++ h1Block)

/-- **C9.** A structural move whose source and destination coincide is a pure
no-op on the vault: `moveH2ToEndOfH1` called with identical source and target
file path and identical source and target H1 title, and `moveH1ToEndOfFile`
called with identical source and target file path, return the vault
unchanged — the guards fire before any delete-then-reinsert. -/
theorem same_source_target_move_noop (fs : FS) (p h1 h2 h1b : LC) :
    moveH2ToEndOfH1 fs p h1 p h1 h2 = fs ∧ moveH1ToEndOfFile fs p p h1b = fs := by
  constructor
  · unfold moveH2ToEndOfH1
    rcases hr : fsRead fs p with _ | lines
    · rfl
    · by_cases hb : extractH2BlockEndGo h1 h2 false false [] lines = []
      · simp only [hb, if_pos]
      · simp only [hb, if_neg, if_pos (And.intro rfl rfl)]
        simp
  · unfold moveH1ToEndOfFile
    exact if_pos rfl

/-- The concrete one-file vault of the C2 scenario: a source note whose H1
"A" holds the H2 "B" with one content line; no target file exists. -/
def c2FS : FS :=
  [(("src.md").toList, [("# A").toList, ("## B").toList, ("hello").toList])]

/-- **C2.** `moveH2BetweenH1s` is not atomic: moving H2 "B" out of `src.md`
towards the nonexistent file `tgt.md` deletes the block from the source
(leaving only the bare H1 line) while `insertH2ToFile` returns without
inserting anywhere, so the block's text is lost — the source is mutated
without the destination insertion having taken place. -/
theorem moveH2BetweenH1s_not_atomic :
    moveH2BetweenH1s c2FS (("src.md").toList) (("A").toList) (("tgt.md").toList)
        (("T").toList) (("B").toList) (("X").toList) false
      = [(("src.md").toList, [("# A").toList])] ∧
    fsRead
      (moveH2BetweenH1s c2FS (("src.md").toList) (("A").toList) (("tgt.md").toList)
        (("T").toList) (("B").toList) (("X").toList) false)
      (("tgt.md").toList) = none := by
  constructor
  · rfl
  · rfl

/-- H2 node of the outline parser `parseMdFile` (part_007): heading text and
the raw content below it, lines joined by a newline character. -/
structure MdH2 where
  headerName : LC
  content : LC
deriving DecidableEq

/-- H1 node of the outline parser `parseMdFile`. -/
structure MdH1 where
  headerName : LC
  h2Nodes : List MdH2
deriving DecidableEq

/-- The mutable state of `parseMdFile`'s line loop. -/
structure MdState where
  inFrontmatter : Bool
  frontmatterDone : Bool
  inFenceCode : Bool
  h1Nodes : List MdH1
  curH1 : Option MdH1
  curH2 : Option MdH2
deriving DecidableEq

def mdInit : MdState := ⟨false, false, false, [], none, none⟩

/-- JS `content.replace(/\s+$/g, "")`: strip trailing whitespace. -/
def dropTrailWs (l : LC) : LC := (l.reverse.dropWhile Char.isWhitespace).reverse

/-- JS `content += (content ? "\n" : "") + line`. -/
def appendContent (c line : LC) : LC := if c = [] then line else c ++ '\n' :: line

/-- `flushH2` of `parseMdFile`: push `curH2` (trailing whitespace of its
content stripped) onto `curH1` when both exist; always clear `curH2`. -/
def mdFlushH2 (s : MdState) : MdState :=
  match s.curH1, s.curH2 with
  | some h1, some h2 =>
    { s with
      curH1 := some { h1 with
        h2Nodes := h1.h2Nodes ++ [{ h2 with content := dropTrailWs h2.content }] },
      curH2 := none }
  | _, _ => { s with curH2 := none }

/-- `flushH1` of `parseMdFile`: flush `curH2`, then push `curH1`. -/
def mdFlushH1 (s : MdState) : MdState :=
  let s1 := mdFlushH2 s
  match s1.curH1 with
  | some h1 => { s1 with h1Nodes := s1.h1Nodes ++ [h1], curH1 := none }
  | none => s1

/-- JS regex test on the raw line of the two fence patterns: optional leading
whitespace, then a triple-backtick or triple-tilde. -/
def isFenceLine (line : LC) : Bool :=
  let t := line.dropWhile Char.isWhitespace
  ("```").toList.isPrefixOf t || ("~~~").toList.isPrefixOf t

/-- The regex match on the trimmed line against the H1 heading pattern
(a hash, at least one whitespace, then a nonempty remainder; the trailing
whitespace of the capture is void because the line is already trimmed). -/
def h1MatchL (t : LC) : Option LC :=
  match t with
  | '#' :: c :: rest =>
    if Char.isWhitespace c then
      let name := (c :: rest).dropWhile Char.isWhitespace
      if name = [] then none else some name
    else none
  | _ => none

/-- The regex match on the trimmed line against the H2 heading pattern. -/
def h2MatchL (t : LC) : Option LC :=
  match t with
  | '#' :: '#' :: c :: rest =>
    if Char.isWhitespace c then
      let name := (c :: rest).dropWhile Char.isWhitespace
      if name = [] then none else some name
    else none
  | _ => none

/-- Body of `parseMdFile`'s loop after the frontmatter machinery: fence
toggling and raw copy, H1/H2 heading recognition, plain content. -/
def mdBody (s : MdState) (line lineTrim : LC) : MdState :=
  if isFenceLine line then
    { s with
      inFenceCode := ! s.inFenceCode,
      curH2 := s.curH2.map (fun h2 => { h2 with content := appendContent h2.content line }) }
  else if s.inFenceCode then
    { s with
      curH2 := s.curH2.map (fun h2 => { h2 with content := appendContent h2.content line }) }
  else
    match h1MatchL lineTrim with
    | some name =>
      let s1 := mdFlushH1 s
      { s1 with curH1 := some ⟨name, []⟩ }
    | none =>
      match h2MatchL lineTrim with
      | some name =>
        match s.curH1 with
        | none => s
        | some _ =>
          let s1 := mdFlushH2 s
          { s1 with curH2 := some ⟨name, []⟩ }
      | none =>
        { s with
          curH2 := s.curH2.map (fun h2 => { h2 with content := appendContent h2.content line }) }

/-- One iteration of `parseMdFile`'s loop for every line after the first
(at index zero only the frontmatter opener is handled specially, by
`parseMdLines` itself). -/
def mdStep (s : MdState) (line : LC) : MdState :=
  let lineTrim := trimL line
  if ! s.frontmatterDone then
    if s.inFrontmatter then
      if lineTrim = ['-', '-', '-'] then
        { s with inFrontmatter := false, frontmatterDone := true }
      else s
    else mdBody { s with frontmatterDone := true } line lineTrim
  else mdBody s line lineTrim

def mdRun (s : MdState) (lines : Lines) : MdState := lines.foldl mdStep s

/-- `parseMdFile` on a pre-split list of lines: the frontmatter block opens
only when the very first line trims to three hyphens. -/
def parseMdLines (lines : Lines) : List MdH1 :=
  match lines with
  | [] => (mdFlushH1 mdInit).h1Nodes
  | first :: rest =>
    let s0 :=
      if trimL first = ['-', '-', '-'] then { mdInit with inFrontmatter := true }
      else mdStep mdInit first
    (mdFlushH1 (mdRun s0 rest)).h1Nodes

/-- H2 info of `FileParser.parseFile` (part_006). -/
structure FPH2 where
  text : LC
  lineNumber : Nat
  content : Lines
deriving DecidableEq

/-- H1 info of `FileParser.parseFile`. -/
structure FPH1 where
  text : LC
  lineNumber : Nat
  h2List : List FPH2
deriving DecidableEq

/-- The line loop of `FileParser.parseFile`: falsy empty lines are skipped
outright, headings are recognised on the trimmed line with no frontmatter or
fence handling, and only nonempty lines under an open H2 are collected. -/
def parseFileGo (i : Nat) (h1List : List FPH1) (curH1 : Option FPH1)
    (curH2 : Option FPH2) : Lines → List FPH1
  | [] =>
    let curH1f :=
      match curH1, curH2 with
      | some h1, some h2 => some { h1 with h2List := h1.h2List ++ [h2] }
      | _, _ => curH1
    match curH1f with
    | some h1 => h1List ++ [h1]
    | none => h1List
  | line :: rest =>
    if line = [] then parseFileGo (i + 1) h1List curH1 curH2 rest
    else
      let t := trimL line
      if isH1L t then
        let pair :=
          match curH1, curH2 with
          | some h1, some h2 => (some { h1 with h2List := h1.h2List ++ [h2] }, none)
          | _, _ => (curH1, curH2)
        let h1List' :=
          match pair.1 with
          | some h1 => h1List ++ [h1]
          | none => h1List
        parseFileGo (i + 1) h1List' (some ⟨trimL (t.drop 2), i, []⟩) pair.2 rest
      else if isH2L t && curH1.isSome then
        let curH1' :=
          match curH1, curH2 with
          | some h1, some h2 => some { h1 with h2List := h1.h2List ++ [h2] }
          | _, _ => curH1
        parseFileGo (i + 1) h1List curH1' (some ⟨trimL (t.drop 3), i, []⟩) rest
      else if curH2.isSome && decide (t ≠ []) then
        parseFileGo (i + 1) h1List curH1
          (curH2.map (fun h2 => { h2 with content := h2.content ++ [line] })) rest
      else parseFileGo (i + 1) h1List curH1 curH2 rest

/-- `FileParser.parseFile` on a pre-split list of lines. -/
def parseFileLines (lines : Lines) : List FPH1 :=
  parseFileGo 0 [] none none lines

/-- While inside an unterminated frontmatter block, every line not trimming
to three hyphens is skipped without touching the state. -/
lemma mdRun_frontmatter (s : MdState) (hs : s.inFrontmatter = true)
    (hd : s.frontmatterDone = false) :
    ∀ fmBody : Lines, (∀ l ∈ fmBody, trimL l ≠ ['-', '-', '-']) → mdRun s fmBody = s := by
  intro fmBody
  induction fmBody with
  | nil => intro _; rfl
  | cons l rest ih =>
    intro hfm
    have hl := hfm l (List.mem_cons_self l rest)
    have hstep : mdStep s l = s := by
      simp [mdStep, hd, hs, hl]
    have h1 : mdRun s (l :: rest) = mdRun (mdStep s l) rest := rfl
    rw [h1, hstep]
    exact ih (fun x hx => hfm x (List.mem_cons_of_mem l hx))

/-- Inside an open fenced code block (frontmatter already done), a run of
non-fence lines only extends the open H2's raw content, creating or closing
no heading. -/
lemma mdRun_fence (body : Lines) :
    ∀ s : MdState, s.frontmatterDone = true → s.inFenceCode = true →
    (∀ l ∈ body, isFenceLine l = false) →
    mdRun s body = { s with curH2 := s.curH2.map (fun h2 => { h2 with content := body.foldl appendContent h2.content }) } := by
  induction body with
  | nil =>
    intro s _ _ _
    cases s with
    | mk a b c d e f => cases f <;> rfl
  | cons l rest ih =>
    intro s hd hf hbody
    obtain ⟨a, b, c, d, e, f⟩ := s
    have hb : b = true := hd
    have hc : c = true := hf
    subst hb
    subst hc
    have hl : isFenceLine l = false := hbody l (List.mem_cons_self l rest)
    have hstep : mdStep ⟨a, true, true, d, e, f⟩ l
        = ⟨a, true, true, d, e, f.map (fun h2 => { h2 with content := appendContent h2.content l })⟩ := by
      simp [mdStep, mdBody, hl]
    have h1 : mdRun (⟨a, true, true, d, e, f⟩ : MdState) (l :: rest)
        = mdRun (mdStep ⟨a, true, true, d, e, f⟩ l) rest := rfl
    rw [h1, hstep]
    have hrest := ih (⟨a, true, true, d, e,
      f.map (fun h2 => { h2 with content := appendContent h2.content l })⟩ : MdState)
      rfl rfl (fun x hx => hbody x (List.mem_cons_of_mem l hx))
    rw [hrest]
    cases f <;> rfl

/-- `FileParser.parseFile` interprets heading-shaped lines inside a
frontmatter block and inside a fenced code block as Section headings: both
the frontmatter line `# F` and the fence-interior line `# X` become H1
nodes. -/
theorem parseFile_fence_heading_counterexample :
    (parseFileLines [("---").toList, ("# F").toList, ("---").toList,
        ("```").toList, ("# X").toList, ("```").toList]).map (fun h1 => h1.text)
      = [("F").toList, ("X").toList] := by rfl

/-- **C8 (amended).** For the outline parser `parseMdFile` the claim holds:
a document opening with a `---` line followed by frontmatter lines (none of
which trims to `---`) up to the closing `---` parses exactly as its
remainder parses with the frontmatter already consumed, so frontmatter lines
never become headings; and from any post-frontmatter state inside an open
fenced code block, a run of non-fence lines only appends, newline-joined, to
the open Entry's raw content and never creates a heading. (`FileParser.parseFile`
lacks both behaviours, see the counterexample.) -/
theorem parse_skips_frontmatter_and_fence_headings
    (fmBody rest body : Lines) (s : MdState)
    (hfm : ∀ l ∈ fmBody, trimL l ≠ ['-', '-', '-'])
    (hs1 : s.frontmatterDone = true) (hs2 : s.inFenceCode = true)
    (hbody : ∀ l ∈ body, isFenceLine l = false) :
    parseMdLines (['-', '-', '-'] :: (fmBody ++ ['-', '-', '-'] :: rest))
      = (mdFlushH1 (mdRun { mdInit with frontmatterDone := true } rest)).h1Nodes
    ∧ mdRun s body = { s with curH2 := s.curH2.map (fun h2 => { h2 with content := body.foldl appendContent h2.content }) } := by
  constructor
  · have e1 : parseMdLines (['-', '-', '-'] :: (fmBody ++ ['-', '-', '-'] :: rest))
        = (mdFlushH1 (mdRun { mdInit with inFrontmatter := true }
            (fmBody ++ ['-', '-', '-'] :: rest))).h1Nodes := rfl
    have e2 : mdRun { mdInit with inFrontmatter := true } (fmBody ++ ['-', '-', '-'] :: rest)
        = mdRun (mdRun { mdInit with inFrontmatter := true } fmBody)
            (['-', '-', '-'] :: rest) := by
      unfold mdRun
      exact List.foldl_append _ _ _ _
    rw [e1, e2, mdRun_frontmatter { mdInit with inFrontmatter := true } rfl rfl fmBody hfm]
    rfl
  · exact mdRun_fence body s hs1 hs2 hbody

/-- A concrete mid-parse state for the fence conjunct: frontmatter done, a
fence open, Entry "A" with Sub-entry "B" in progress. -/
def c8S : MdState :=
  ⟨false, true, true, [], some ⟨("A").toList, []⟩, some ⟨("B").toList, []⟩⟩

/-- Concrete instantiation of the frontmatter/fence theorem: frontmatter
line "title: x", remainder "# A", fence interior "# Y" from state `c8S`. -/
theorem parse_skips_frontmatter_and_fence_headings_witness :
    (∀ l ∈ ([("title: x").toList] : Lines), trimL l ≠ ['-', '-', '-'])
    ∧ (∀ l ∈ ([("# Y").toList] : Lines), isFenceLine l = false)
    ∧ (parseMdLines (['-', '-', '-'] :: ([("title: x").toList] ++ ['-', '-', '-'] :: [("# A").toList]))
        = (mdFlushH1 (mdRun { mdInit with frontmatterDone := true } [("# A").toList])).h1Nodes
      ∧ mdRun c8S [("# Y").toList] = { c8S with curH2 := c8S.curH2.map (fun h2 => { h2 with content := [("# Y").toList].foldl appendContent h2.content }) }) :=
  ⟨by decide, by decide,
    parse_skips_frontmatter_and_fence_headings [("title: x").toList] [("# A").toList]
      [("# Y").toList] c8S (by decide) rfl rfl (by decide)⟩
